import Mathlib

set_option autoImplicit false

/-!
# Verification of the bpxe process scheduler core

A shallow embedding of the BPMN process scheduler found in
`src/bpxe/src/process/scheduler.rs` together with the `EndEvent` flow node
from `src/src/event/end_event.rs`, and theorems settling the behavioural
claims about them.

Modelling conventions:

* The expression evaluator is external to the repository; it is passed as a
  parameter `ev : Option String → String → Except String Bool`
  (language tag, expression source → result or error description).
* Flow-node state machines are polymorphic in the source
  (`Box<dyn FlowNode>`); here the node payload is a type parameter `α`
  together with a `NodeOps α` method table mirroring the `FlowNode` trait
  methods the scheduler invokes.  Each wrapper record additionally carries a
  ghost `key : Nat` used only to identify a node across a run in the
  statements of theorems; the scheduler's logic never inspects it.
* Calls the scheduler makes into flow nodes (`tokens`, `incoming`,
  `sequence_flow`, `handle_outgoing_action`) are both applied to the node
  payload through `NodeOps` and recorded in an observable `Call` trace, so
  theorems can speak about which node received which call.
* `SequenceFlow.id` is total here: in the source it is `Option<String>`
  unwrapped after `find_by_id` succeeded, which guarantees presence.
* Rust `Vec` indexing panics when out of range; the embedding uses `[·]?`
  and skips the iteration on `none`.  All claims concern in-range indices.
-/

namespace Bpxe

/-- Kind tag of a BPMN flow element (the `Element` enum `E` of the schema). -/
inductive ElementKind where
  | startEvent
  | endEvent
  | intermediateThrowEvent
  | sequenceFlow
  | otherKind (name : String)
deriving DecidableEq, Repr

/-- A sequence flow: directed edge of the process graph with an optional
condition expression.  `condition_expression = some (some c)` models
`Some(Expr::FormalExpression(FormalExpression{content: Some(c), ..}))`;
`some none` models a formal expression with no content. -/
structure SequenceFlow where
  id : String
  source_ref : String
  target_ref : String
  condition_expression : Option (Option String)
deriving DecidableEq, Repr

/-- The static description of a flow node: id, ordered incoming edge ids,
ordered outgoing edge ids, kind tag. -/
structure FlowNodeElement where
  id : Option String
  incomings : List String
  outgoings : List String
  kind : ElementKind
deriving DecidableEq, Repr

/-- A flow element of the process: either a flow node or a sequence flow. -/
inductive FlowElement where
  | node (e : FlowNodeElement)
  | seqFlow (sf : SequenceFlow)
deriving DecidableEq, Repr

/-- The id under which an element is found by `find_by_id`. -/
def FlowElement.elemId : FlowElement → Option String
  | .node e => e.id
  | .seqFlow sf => some sf.id

/-- The kind tag of a flow element (`DocumentElement::element()`). -/
def FlowElement.kind : FlowElement → ElementKind
  | .node e => e.kind
  | .seqFlow _ => .sequenceFlow

/-- `element.find_by_id(id)`: first element of the tree with the given id. -/
def find_by_id (els : List FlowElement) (i : String) : Option FlowElement :=
  els.find? (fun e => e.elemId == some i)

/-- `find_by_id(..).and_then(|e| e.downcast_ref::<SequenceFlow>())`. -/
def findSeqFlow (els : List FlowElement) (i : String) : Option SequenceFlow :=
  (find_by_id els i).bind fun e =>
    match e with
    | .seqFlow sf => some sf
    | _ => none

/-- An action a flow node emits (`flow_node::Action`). -/
inductive Action where
  | complete
  | probeOutgoingSequenceFlows (indices : List Nat)
  | flow (indices : List Nat)
deriving DecidableEq, Repr

/-- A log entry broadcast by the scheduler (`process::Log`). -/
inductive Log where
  | flowNodeIncoming (node : FlowNodeElement) (incoming_index : Nat)
  | flowNodeCompleted (node : FlowNodeElement)
  | expressionError (error : String)
  | done
deriving DecidableEq, Repr

/-- A process event broadcast on the event bus (`event::ProcessEvent`);
only the variants the core emits are modelled. -/
inductive ProcessEvent where
  | start
  | end_
  | noneEvent
deriving DecidableEq, Repr

/-- Observable record of a call the scheduler makes into a flow node,
identified by the node's ghost key. -/
inductive Call where
  | tokensCall (key : Nat) (n : Nat)
  | incomingCall (key : Nat) (index : Nat)
  | sequenceFlowCall (key : Nat) (index : Nat) (success : Bool)
  | hookCall (key : Nat) (index : Nat)
deriving DecidableEq, Repr

/-- The method table of the `FlowNode` trait, restricted to the methods the
scheduler invokes during the run loop.  `handle_outgoing_action` takes
`&mut self` in the source, hence returns the updated payload here. -/
structure NodeOps (α : Type) where
  element : α → FlowNodeElement
  handle_outgoing_action : α → Nat → Option Action → α × Option (Option Action)
  incoming : α → Nat → α
  tokens : α → Nat → α
  sequence_flow : α → Nat → SequenceFlow → Bool → α

/-- The scheduler's per-node record (`struct FlowNode` in scheduler.rs):
node id (empty string when absent), the node state machine, and the
cumulative token counter.  `key` is a ghost identity (see module header). -/
structure FlowNode (α : Type) where
  key : Nat
  id : String
  tokens : Nat
  node : α
deriving DecidableEq, Repr

/-- `probe_sequence_flow`: true when there is no condition expression
content; otherwise the evaluation result, with an evaluation error
broadcast as a single `ExpressionError` log and treated as false. -/
def probe_sequence_flow (ev : Option String → String → Except String Bool)
    (lang : Option String) (sf : SequenceFlow) : Bool × List Log :=
  match sf.condition_expression with
  | some (some content) =>
    match ev lang content with
    | .ok result => (result, [])
    | .error err => (false, [.expressionError err])
  | _ => (true, [])

/-- Reply sent on the `Start` control request's channel. -/
inductive StartReply where
  | ok
  | noStartEvent
deriving DecidableEq, Repr

/-- `Scheduler::start`: if no flow element has kind tag `StartEvent`,
reply `NoStartEvent`; otherwise broadcast the process `Start` event and
reply `Ok`.  Returns the reply and the broadcast process events. -/
def schedulerStart (els : List FlowElement) : StartReply × List ProcessEvent :=
  if !(els.any (fun e => e.kind == ElementKind.startEvent)) then
    (.noStartEvent, [])
  else
    (.ok, [.start])

/-- The fold state of the incoming-edge splice (`enum Control` in
`Scheduler::run`): either keep folding with the current (optional) action,
or the action has been dropped. -/
inductive Control where
  | proceed (action : Option Action)
  | drop
deriving DecidableEq, Repr

/-- Whether a node owns the given edge among its outgoings
(the predicate of the predecessor search in the splice fold). -/
def ownsEdge {α : Type} (ops : NodeOps α) (incoming : String) (n : FlowNode α) : Bool :=
  (ops.element n.node).outgoings.contains incoming

/-- Position of an edge id in a node's outgoings (the `unwrap`ped index in
the splice; the `getD 0` branch is unreachable when the node owns the edge). -/
def outgoingPos {α : Type} (ops : NodeOps α) (n : FlowNode α) (incoming : String) : Nat :=
  ((ops.element n.node).outgoings.findIdx? (fun o => o == incoming)).getD 0

/-- The incoming-edge splice fold of `Scheduler::run` (lines 170-198):
fold over the producing node's incomings; for each, find the first node in
the set whose outgoings contain the edge, invoke its
`handle_outgoing_action(index, action)` (mutating it in place), drop the
action and stop consulting further edges on `None`, replace the action and
continue on `Some`.  When no predecessor owns the edge the action is
unchanged.  Returns the (possibly mutated) node set, the fold outcome, and
the record of hook invocations. -/
def spliceFold {α : Type} (ops : NodeOps α) (nodes : List (FlowNode α)) :
    List String → Option Action → List (FlowNode α) × Control × List Call
  | [], action => (nodes, .proceed action, [])
  | incoming :: rest, action =>
    match nodes.findIdx? (ownsEdge ops incoming) with
    | none => spliceFold ops nodes rest action
    | some j =>
      match nodes[j]? with
      | none => spliceFold ops nodes rest action
      | some pred =>
        let index := outgoingPos ops pred incoming
        let hres := ops.handle_outgoing_action pred.node index action
        let nodes' := nodes.set j { pred with node := hres.1 }
        match hres.2 with
        | none => (nodes', .drop, [.hookCall pred.key index])
        | some action' =>
          let next := spliceFold ops nodes' rest action'
          (next.1, next.2.1, .hookCall pred.key index :: next.2.2)

/-- Delivery of one fired sequence flow to the node set (the inner
`for next_node in self.flow_nodes.iter_mut()` loop of the `Flow` branch,
lines 230-254): every node whose `id` equals the flow's `target_ref` and
whose incomings contain the flow's id gets one `FlowNodeIncoming` log, its
token counter incremented by `count`, a `tokens(new)` call and an
`incoming(index)` call with `index` the first position of the edge id in
the target's incomings. -/
def deliverToTargets {α : Type} (ops : NodeOps α) (sf : SequenceFlow) (count : Nat) :
    List (FlowNode α) → List (FlowNode α) × List Log × List Call
  | [] => ([], [], [])
  | n :: rest =>
    if n.id == sf.target_ref then
      match (ops.element n.node).incomings.findIdx? (fun inc => inc == sf.id) with
      | some index =>
        let newTokens := n.tokens + count
        let n' : FlowNode α :=
          { n with tokens := newTokens,
                   node := ops.incoming (ops.tokens n.node newTokens) index }
        let next := deliverToTargets ops sf count rest
        (n' :: next.1,
         .flowNodeIncoming (ops.element n.node) index :: next.2.1,
         .tokensCall n.key newTokens :: .incomingCall n.key index :: next.2.2)
      | none =>
        let next := deliverToTargets ops sf count rest
        (n :: next.1, next.2.1, next.2.2)
    else
      let next := deliverToTargets ops sf count rest
      (n :: next.1, next.2.1, next.2.2)

/-- Firing of a single outgoing edge in the `Flow(indices)` branch: look up
the sequence flow by the `index`-th outgoing id, probe its condition, and
on success deliver to the matching targets.  `count` is `indices.len()` of
the whole action. -/
def applyFlowEdge {α : Type} (ops : NodeOps α)
    (ev : Option String → String → Except String Bool) (lang : Option String)
    (tree : List FlowElement) (el : FlowNodeElement) (count : Nat) (index : Nat)
    (nodes : List (FlowNode α)) : List (FlowNode α) × List Log × List Call :=
  match el.outgoings[index]? with
  | none => (nodes, [], [])
  | some oid =>
    match findSeqFlow tree oid with
    | none => (nodes, [], [])
    | some sf =>
      let pr := probe_sequence_flow ev lang sf
      if pr.1 then
        let d := deliverToTargets ops sf count nodes
        (d.1, pr.2 ++ d.2.1, d.2.2)
      else
        (nodes, pr.2, [])

/-- The `Flow(indices)` branch of `Scheduler::run` (lines 215-258): fire
each listed outgoing edge in order, threading the node set.  `count` stays
the length of the original `indices` list throughout. -/
def applyFlow {α : Type} (ops : NodeOps α)
    (ev : Option String → String → Except String Bool) (lang : Option String)
    (tree : List FlowElement) (el : FlowNodeElement) (count : Nat) :
    List Nat → List (FlowNode α) → List (FlowNode α) × List Log × List Call
  | [], nodes => (nodes, [], [])
  | i :: rest, nodes =>
    let e := applyFlowEdge ops ev lang tree el count i nodes
    let r := applyFlow ops ev lang tree el count rest e.1
    (r.1, e.2.1 ++ r.2.1, e.2.2 ++ r.2.2)

/-- The `ProbeOutgoingSequenceFlows(indices)` branch (lines 200-214): for
each index look up the outgoing sequence flow, probe its condition and
report the result to the producing node via `sequence_flow`. -/
def applyProbe {α : Type} (ops : NodeOps α)
    (ev : Option String → String → Except String Bool) (lang : Option String)
    (tree : List FlowElement) (producer : FlowNode α) :
    List Nat → FlowNode α × List Log × List Call
  | [] => (producer, [], [])
  | i :: rest =>
    match (ops.element producer.node).outgoings[i]? with
    | none => applyProbe ops ev lang tree producer rest
    | some oid =>
      match findSeqFlow tree oid with
      | none => applyProbe ops ev lang tree producer rest
      | some sf =>
        let pr := probe_sequence_flow ev lang sf
        let producer' : FlowNode α :=
          { producer with node := ops.sequence_flow producer.node i sf pr.1 }
        let r := applyProbe ops ev lang tree producer' rest
        (r.1, pr.2 ++ r.2.1, .sequenceFlowCall producer.key i pr.1 :: r.2.2)

/-- One turn of the data branch of `Scheduler::run` (lines 163-272): the
producing node has been removed from the set by the readiness mux and
yielded `action`; splice over its incomings, apply the resulting control,
and re-enqueue the producer — except in the `Proceed(None)` case, whose
`continue` skips the re-enqueue (broadcasting `Done` first when the set is
empty). -/
def dataTurn {α : Type} (ops : NodeOps α)
    (ev : Option String → String → Except String Bool) (lang : Option String)
    (tree : List FlowElement) (producer : FlowNode α) (action : Option Action)
    (nodes : List (FlowNode α)) : List (FlowNode α) × List Log × List Call :=
  let sp := spliceFold ops nodes (ops.element producer.node).incomings action
  match sp.2.1 with
  | .proceed (some (.probeOutgoingSequenceFlows indices)) =>
    let r := applyProbe ops ev lang tree producer indices
    (sp.1 ++ [r.1], r.2.1, sp.2.2 ++ r.2.2)
  | .proceed (some (.flow indices)) =>
    let r := applyFlow ops ev lang tree (ops.element producer.node) indices.length
      indices sp.1
    (r.1 ++ [producer], r.2.1, sp.2.2 ++ r.2.2)
  | .proceed (some .complete) =>
    (sp.1 ++ [producer], [.flowNodeCompleted (ops.element producer.node)], sp.2.2)
  | .proceed none =>
    (sp.1, if sp.1.isEmpty then [.done] else [], sp.2.2)
  | .drop =>
    (sp.1 ++ [producer], [], sp.2.2)

/-- The scheduler's mutable state: the flow-node set, the stashed join
handle (modelled as a `Nat` token) and whether `Terminate` has exited the
loop. -/
structure SchedState (α : Type) where
  nodes : List (FlowNode α)
  joinHandle : Option Nat
  stopped : Bool
deriving DecidableEq, Repr

/-- One occurrence the run loop can wake up on: a control request, a closed
inbox, or the readiness mux yielding node `j` with an action.  `polled` is
the node's internal state after the poll that produced the action (chosen
adversarially, since node behaviour is polymorphic). -/
inductive SchedEvent (α : Type) where
  | ctrlJoinHandle (h : Nat)
  | ctrlTerminate
  | ctrlStart
  | ctrlClosed
  | deliver (j : Nat) (action : Option Action) (polled : α)
deriving DecidableEq, Repr

/-- One iteration of the `Scheduler::run` loop on one occurrence.  Returns
the new state, the log entries broadcast, the calls made into nodes and the
process events broadcast.  A `deliver` with `j` out of range models the mux
having nothing to yield and does nothing, as does any occurrence after
`Terminate` returned from the loop. -/
def schedStep {α : Type} (ops : NodeOps α)
    (ev : Option String → String → Except String Bool) (lang : Option String)
    (tree : List FlowElement) (s : SchedState α) :
    SchedEvent α → SchedState α × List Log × List Call × List ProcessEvent
  | e =>
    if s.stopped then (s, [], [], []) else
    match e with
    | .ctrlJoinHandle h => ({ s with joinHandle := some h }, [], [], [])
    | .ctrlTerminate => ({ s with joinHandle := none, stopped := true }, [], [], [])
    | .ctrlStart => (s, [], [], (schedulerStart tree).2)
    | .ctrlClosed => (s, [], [], [])
    | .deliver j action polled =>
      match s.nodes[j]? with
      | none => (s, [], [], [])
      | some rec0 =>
        let producer : FlowNode α := { rec0 with node := polled }
        let rest := s.nodes.eraseIdx j
        let r := dataTurn ops ev lang tree producer action rest
        ({ s with nodes := r.1 }, r.2.1, r.2.2, [])

/-- A whole run: fold `schedStep` over a list of occurrences, concatenating
the observable traces. -/
def schedRun {α : Type} (ops : NodeOps α)
    (ev : Option String → String → Except String Bool) (lang : Option String)
    (tree : List FlowElement) (s : SchedState α) :
    List (SchedEvent α) → SchedState α × List Log × List Call × List ProcessEvent
  | [] => (s, [], [], [])
  | e :: rest =>
    let r1 := schedStep ops ev lang tree s e
    let r2 := schedRun ops ev lang tree r1.1 rest
    (r2.1, r1.2.1 ++ r2.2.1, r1.2.2.1 ++ r2.2.2.1, r1.2.2.2 ++ r2.2.2.2)

/-- `end_event::State`: node state of the End Event flow node. -/
inductive EndEventState where
  | ready
  | complete
  | done
deriving DecidableEq, Repr

/-- `EndEvent::incoming` (end_event.rs lines 59-66): any incoming sets the
state to `Complete`, unconditionally, from every prior state. -/
def endEventIncoming (st : EndEventState) (index : Nat) : EndEventState :=
  match st, index with
  | _, _ => .complete

/-- `<EndEvent as Stream>::poll_next` (end_event.rs lines 79-98): `Ready`
and `Done` are pending (`none`); `Complete` broadcasts the process `End`
event, yields `Action::Complete` and moves to `Done`.  The stream never
reaches end-of-stream. -/
def endEventPollNext : EndEventState → Option (Option Action × List ProcessEvent × EndEventState)
  | .ready => none
  | .complete => some (some .complete, [.end_], .done)
  | .done => none

/-- Modelled from the spec: the Start Event node's state, `start_event.rs`
being absent from `src/`.  §4.1: "transitions Ready → Complete on the first
`Start` event, emits `Flow` across all its outgoings, then `Complete`, then
end-of-stream". -/
inductive StartEventState where
  | ready
  | flowing
  | completing
  | finished
deriving DecidableEq, Repr

/-- Modelled from the spec: the Start Event's stream poll, `start_event.rs`
being absent from `src/`.  Pending until started; then one
`Flow` over all outgoings, then `Complete`, then end-of-stream. -/
def startEventPollNext (el : FlowNodeElement) :
    StartEventState → Option (Option Action × List ProcessEvent × StartEventState)
  | .ready => none
  | .flowing => some (some (.flow (List.range el.outgoings.length)), [], .completing)
  | .completing => some (some .complete, [], .finished)
  | .finished => some (none, [], .finished)

/-- A concrete flow-node state machine: a Start Event (spec-modelled) or an
End Event (from the source), each carrying its element description. -/
inductive NodeImpl where
  | startEventNode (el : FlowNodeElement) (st : StartEventState)
  | endEventNode (el : FlowNodeElement) (st : EndEventState)
deriving DecidableEq, Repr

/-- `element()` of a concrete node. -/
def NodeImpl.element : NodeImpl → FlowNodeElement
  | .startEventNode el _ => el
  | .endEventNode el _ => el

/-- `incoming(index)` of a concrete node: the End Event completes
(end_event.rs line 62); the Start Event has no `incoming` behaviour. -/
def NodeImpl.applyIncoming : NodeImpl → Nat → NodeImpl
  | .startEventNode el st, _ => .startEventNode el st
  | .endEventNode el st, i => .endEventNode el (endEventIncoming st i)

/-- Reaction to a process event broadcast.  Modelled from the spec for the
Start Event: Ready reacts to the first `Start`; everything else ignores
broadcasts (the End Event does not subscribe to readable events). -/
def NodeImpl.onProcessEvent : NodeImpl → ProcessEvent → NodeImpl
  | .startEventNode el .ready, .start => .startEventNode el .flowing
  | n, _ => n

/-- One poll of a concrete node's stream: `none` when pending, otherwise
the yielded item (`none` item = end-of-stream), the process events
broadcast during the poll, and the new node state. -/
def NodeImpl.poll : NodeImpl → Option (Option Action × List ProcessEvent × NodeImpl)
  | .startEventNode el st =>
    match startEventPollNext el st with
    | none => none
    | some (a, evs, st') => some (a, evs, .startEventNode el st')
  | .endEventNode el st =>
    match endEventPollNext st with
    | none => none
    | some (a, evs, st') => some (a, evs, .endEventNode el st')

/-- The `FlowNode` trait method table of the concrete nodes:
`handle_outgoing_action` is the default identity (neither node overrides
it), `tokens` and `sequence_flow` are the default no-ops. -/
def scenOps : NodeOps NodeImpl :=
  { element := NodeImpl.element
    handle_outgoing_action := fun n _ a => (n, some a)
    incoming := NodeImpl.applyIncoming
    tokens := fun n _ => n
    sequence_flow := fun n _ _ _ => n }

/-- An occurrence in a closed run over concrete nodes: a `Start` control
request, or the readiness mux polling node `j`. -/
inductive ScenEvent where
  | start
  | poll (j : Nat)
deriving DecidableEq, Repr

/-- One turn of the closed system: `start` performs `Scheduler::start` and
delivers the broadcast to the subscribed nodes; `poll j` polls node `j` and,
when it yields, runs the data branch of the loop (`dataTurn`).  Polling a
pending node does nothing (the mux would not have yielded it). -/
def scenStep (ev : Option String → String → Except String Bool)
    (lang : Option String) (tree : List FlowElement) (s : SchedState NodeImpl) :
    ScenEvent → SchedState NodeImpl × List Log × List Call × List ProcessEvent
  | .start =>
    let r := schedulerStart tree
    let nodes' := s.nodes.map fun n =>
      { n with node := r.2.foldl NodeImpl.onProcessEvent n.node }
    ({ s with nodes := nodes' }, [], [], r.2)
  | .poll j =>
    match s.nodes[j]? with
    | none => (s, [], [], [])
    | some rec0 =>
      match rec0.node.poll with
      | none => (s, [], [], [])
      | some (action, pevs, polled) =>
        let producer : FlowNode NodeImpl := { rec0 with node := polled }
        let rest := s.nodes.eraseIdx j
        let r := dataTurn scenOps ev lang tree producer action rest
        ({ s with nodes := r.1 }, r.2.1, r.2.2, pevs)

/-- A closed run: fold `scenStep` over the occurrences. -/
def scenRun (ev : Option String → String → Except String Bool)
    (lang : Option String) (tree : List FlowElement) (s : SchedState NodeImpl) :
    List ScenEvent → SchedState NodeImpl × List Log × List Call × List ProcessEvent
  | [] => (s, [], [], [])
  | e :: rest =>
    let r1 := scenStep ev lang tree s e
    let r2 := scenRun ev lang tree r1.1 rest
    (r2.1, r1.2.1 ++ r2.2.1, r1.2.2.1 ++ r2.2.2.1, r1.2.2.2 ++ r2.2.2.2)

/-- Whether a node is a delivery target of the given sequence flow: its id
equals the flow's `target_ref` and its incomings contain the flow's id. -/
def edgeMatches {α : Type} (ops : NodeOps α) (sf : SequenceFlow) (n : FlowNode α) : Bool :=
  n.id == sf.target_ref &&
    ((ops.element n.node).incomings.findIdx? (fun inc => inc == sf.id)).isSome

/-- The first position of the flow's id in a target's incomings. -/
def edgeIncomingIdx {α : Type} (ops : NodeOps α) (sf : SequenceFlow) (n : FlowNode α) : Nat :=
  ((ops.element n.node).incomings.findIdx? (fun inc => inc == sf.id)).getD 0

/-- The effect of one fired edge on one node of the set: targets get their
tokens bumped by `count` and receive the `tokens`/`incoming` calls; other
nodes are untouched. -/
def deliverNode {α : Type} (ops : NodeOps α) (sf : SequenceFlow) (count : Nat)
    (n : FlowNode α) : FlowNode α :=
  if edgeMatches ops sf n then
    { n with tokens := n.tokens + count,
             node := ops.incoming (ops.tokens n.node (n.tokens + count))
               (edgeIncomingIdx ops sf n) }
  else n

/-- The ghost key a call is addressed to. -/
def callKey : Call → Nat
  | .tokensCall k _ => k
  | .incomingCall k _ => k
  | .sequenceFlowCall k _ _ => k
  | .hookCall k _ => k

/-- Characterization of the per-edge delivery loop: the node set is mapped
through `deliverNode`, and the logs and calls are exactly one
`FlowNodeIncoming` log and one `tokens`-then-`incoming` call pair per
matching target, in set order. -/
theorem deliverToTargets_eq {α : Type} (ops : NodeOps α) (sf : SequenceFlow)
    (count : Nat) (nodes : List (FlowNode α)) :
    deliverToTargets ops sf count nodes =
      (nodes.map (deliverNode ops sf count),
       (nodes.filter (edgeMatches ops sf)).map
         (fun n => Log.flowNodeIncoming (ops.element n.node) (edgeIncomingIdx ops sf n)),
       (nodes.filter (edgeMatches ops sf)).flatMap
         (fun n => [Call.tokensCall n.key (n.tokens + count),
                    Call.incomingCall n.key (edgeIncomingIdx ops sf n)])) := by
  induction nodes with
  | nil => rfl
  | cons n rest ih =>
    cases h1 : (n.id == sf.target_ref) with
    | false =>
      have hm : edgeMatches ops sf n = false := by
        simp [edgeMatches, h1]
      simp [deliverToTargets, h1, ih, hm, deliverNode]
    | true =>
      cases h2 : (ops.element n.node).incomings.findIdx? (fun inc => inc == sf.id) with
      | none =>
        have hm : edgeMatches ops sf n = false := by
          simp [edgeMatches, h1, h2]
        simp [deliverToTargets, h1, h2, ih, hm, deliverNode]
      | some k =>
        have hm : edgeMatches ops sf n = true := by
          simp [edgeMatches, h1, h2]
        have hidx : edgeIncomingIdx ops sf n = k := by
          simp [edgeIncomingIdx, h2]
        simp [deliverToTargets, h1, h2, ih, hm, deliverNode, hidx]

/-- In a set with distinct keys, two members with the same key are equal. -/
theorem eq_of_key_eq {α : Type} {nodes : List (FlowNode α)}
    (hkeys : (nodes.map FlowNode.key).Nodup) {m n : FlowNode α}
    (hm : m ∈ nodes) (hn : n ∈ nodes) (h : m.key = n.key) : m = n :=
  List.inj_on_of_nodup_map hkeys hm hn h

/-- Counting a call in a flat-map of per-node call lists, when each node
contributes only calls addressed to its own key and keys are distinct:
only node `n`'s own contribution counts. -/
theorem flatMap_keyed_count {α : Type} (F : FlowNode α → List Call)
    (hF : ∀ m c, c ∈ F m → callKey c = m.key)
    (l : List (FlowNode α)) (hk : (l.map FlowNode.key).Nodup)
    (n : FlowNode α) (hn : n ∈ l) (c : Call) (hc : callKey c = n.key) :
    (l.flatMap F).count c = (F n).count c := by
  induction l with
  | nil => cases hn
  | cons m rest ih =>
    have hk0 : (m.key :: rest.map FlowNode.key).Nodup := by simpa using hk
    have hk1 : m.key ∉ rest.map FlowNode.key := (List.nodup_cons.mp hk0).1
    have hk2 : (rest.map FlowNode.key).Nodup := (List.nodup_cons.mp hk0).2
    simp only [List.flatMap_cons, List.count_append]
    rcases List.mem_cons.mp hn with h | h
    · subst h
      have hz : (rest.flatMap F).count c = 0 := by
        refine List.count_eq_zero.mpr fun hmem => ?_
        rcases List.mem_flatMap.mp hmem with ⟨m', hm', hcm'⟩
        exact hk1 (hc ▸ hF m' c hcm' ▸ List.mem_map_of_mem FlowNode.key hm')
      omega
    · have hz : (F m).count c = 0 := by
        refine List.count_eq_zero.mpr fun hmem => ?_
        have : m.key ∈ rest.map FlowNode.key := by
          rw [← hF m c hmem, hc]
          exact List.mem_map_of_mem FlowNode.key h
        exact hk1 this
      rw [hz, ih hk2 h]
      omega

/-- Every call in a flat-map of per-node call lists is addressed to a key
of some node of the list. -/
theorem flatMap_keyed_mem {α : Type} (F : FlowNode α → List Call)
    (hF : ∀ m c, c ∈ F m → callKey c = m.key)
    (l : List (FlowNode α)) {c : Call} (hc : c ∈ l.flatMap F) :
    callKey c ∈ l.map FlowNode.key := by
  rcases List.mem_flatMap.mp hc with ⟨m, hm, hcm⟩
  exact hF m c hcm ▸ List.mem_map_of_mem FlowNode.key hm

/-- The call list of one edge-firing, as a flat-map over matching targets. -/
def deliverCalls {α : Type} (ops : NodeOps α) (sf : SequenceFlow) (count : Nat)
    (nodes : List (FlowNode α)) : List Call :=
  (nodes.filter (edgeMatches ops sf)).flatMap
    (fun n => [Call.tokensCall n.key (n.tokens + count),
               Call.incomingCall n.key (edgeIncomingIdx ops sf n)])

/-- Each matching target of an edge receives exactly one `tokens` call,
carrying its incremented counter, and exactly one `incoming` call, carrying
the first position of the edge in its incomings; no other values are
addressed to it. -/
theorem deliverCalls_spec {α : Type} (ops : NodeOps α) (sf : SequenceFlow)
    (count : Nat) (nodes : List (FlowNode α))
    (hkeys : (nodes.map FlowNode.key).Nodup)
    (n : FlowNode α) (hn : n ∈ nodes) (hm : edgeMatches ops sf n = true) :
    (deliverCalls ops sf count nodes).count
        (Call.tokensCall n.key (n.tokens + count)) = 1 ∧
    (deliverCalls ops sf count nodes).count
        (Call.incomingCall n.key (edgeIncomingIdx ops sf n)) = 1 ∧
    (∀ k', Call.incomingCall n.key k' ∈ deliverCalls ops sf count nodes →
      k' = edgeIncomingIdx ops sf n) ∧
    (∀ v, Call.tokensCall n.key v ∈ deliverCalls ops sf count nodes →
      v = n.tokens + count) := by
  have hF : ∀ (m : FlowNode α) c,
      c ∈ [Call.tokensCall m.key (m.tokens + count),
           Call.incomingCall m.key (edgeIncomingIdx ops sf m)] → callKey c = m.key := by
    intro m c hc
    rcases List.mem_cons.mp hc with h | h
    · simp [h, callKey]
    · simp only [List.mem_singleton] at h
      simp [h, callKey]
  have hsub : List.Sublist ((nodes.filter (edgeMatches ops sf)).map FlowNode.key)
      (nodes.map FlowNode.key) := (List.filter_sublist nodes).map FlowNode.key
  have hkf : ((nodes.filter (edgeMatches ops sf)).map FlowNode.key).Nodup :=
    List.Nodup.sublist hsub hkeys
  have hnf : n ∈ nodes.filter (edgeMatches ops sf) := List.mem_filter.mpr ⟨hn, hm⟩
  refine ⟨?_, ?_, ?_, ?_⟩
  · rw [deliverCalls, flatMap_keyed_count _ hF _ hkf n hnf _ (by simp [callKey])]
    simp
  · rw [deliverCalls, flatMap_keyed_count _ hF _ hkf n hnf _ (by simp [callKey])]
    simp
  · intro k' hmem
    rcases List.mem_flatMap.mp hmem with ⟨m, hmF, hcm⟩
    have hkey : n.key = m.key := hF m _ hcm
    have hmn : m = n :=
      eq_of_key_eq hkeys (List.mem_of_mem_filter hmF) hn hkey.symm
    subst hmn
    simpa using hcm
  · intro v hmem
    rcases List.mem_flatMap.mp hmem with ⟨m, hmF, hcm⟩
    have hkey : n.key = m.key := hF m _ hcm
    have hmn : m = n :=
      eq_of_key_eq hkeys (List.mem_of_mem_filter hmF) hn hkey.symm
    subst hmn
    simpa using hcm

/-- `deliverNode` never changes a node's key. -/
theorem deliverNode_key {α : Type} (ops : NodeOps α) (sf : SequenceFlow)
    (count : Nat) (n : FlowNode α) : (deliverNode ops sf count n).key = n.key := by
  unfold deliverNode
  split <;> rfl

/-- `deliverNode` never changes a node's id. -/
theorem deliverNode_id {α : Type} (ops : NodeOps α) (sf : SequenceFlow)
    (count : Nat) (n : FlowNode α) : (deliverNode ops sf count n).id = n.id := by
  unfold deliverNode
  split <;> rfl

/-- `deliverNode` never decreases a node's token counter. -/
theorem deliverNode_tokens_ge {α : Type} (ops : NodeOps α) (sf : SequenceFlow)
    (count : Nat) (n : FlowNode α) : n.tokens ≤ (deliverNode ops sf count n).tokens := by
  unfold deliverNode
  split <;> simp

/-- A probe that answers true broadcasts nothing. -/
theorem probe_true_no_logs (ev : Option String → String → Except String Bool)
    (lang : Option String) (sf : SequenceFlow) :
    (probe_sequence_flow ev lang sf).1 = true →
    (probe_sequence_flow ev lang sf).2 = [] := by
  unfold probe_sequence_flow
  rcases sf.condition_expression with _ | (_ | c)
  · simp
  · simp
  · cases h : ev lang c <;> simp [h]

/-- C1: applying one fired edge of a `Flow(indices)` action looks up the
edge's sequence flow and probes its condition; exactly when the probe is
true, every node of the set whose id equals the flow's `target_ref` and
whose incomings contain the flow's id gets one `FlowNodeIncoming` log, its
token counter incremented by `indices.len()`, exactly one `tokens` call
carrying the new count, and exactly one `incoming(k)` call with `k` the
(first) position of the edge in its incomings; when the probe is false no
delivery, token change or call happens for that edge. -/
theorem flow_action_delivery {α : Type} (ops : NodeOps α)
    (ev : Option String → String → Except String Bool) (lang : Option String)
    (tree : List FlowElement) (el : FlowNodeElement) (indices : List Nat)
    (i : Nat) (nodes : List (FlowNode α))
    (hkeys : (nodes.map FlowNode.key).Nodup)
    (hi : i ∈ indices) (oid : String) (sf : SequenceFlow)
    (h1 : el.outgoings[i]? = some oid) (h2 : findSeqFlow tree oid = some sf) :
    ((probe_sequence_flow ev lang sf).1 = true →
      applyFlowEdge ops ev lang tree el indices.length i nodes =
        (nodes.map (deliverNode ops sf indices.length),
         (nodes.filter (edgeMatches ops sf)).map
           (fun n => Log.flowNodeIncoming (ops.element n.node) (edgeIncomingIdx ops sf n)),
         deliverCalls ops sf indices.length nodes) ∧
      (∀ n ∈ nodes, ∀ k, n.id = sf.target_ref →
        (ops.element n.node).incomings.findIdx? (fun inc => inc == sf.id) = some k →
        (deliverNode ops sf indices.length n).tokens = n.tokens + indices.length ∧
        (applyFlowEdge ops ev lang tree el indices.length i nodes).2.2.count
          (Call.tokensCall n.key (n.tokens + indices.length)) = 1 ∧
        (applyFlowEdge ops ev lang tree el indices.length i nodes).2.2.count
          (Call.incomingCall n.key k) = 1 ∧
        (∀ k', Call.incomingCall n.key k' ∈
          (applyFlowEdge ops ev lang tree el indices.length i nodes).2.2 → k' = k))) ∧
    ((probe_sequence_flow ev lang sf).1 = false →
      applyFlowEdge ops ev lang tree el indices.length i nodes =
        (nodes, (probe_sequence_flow ev lang sf).2, [])) := by
  constructor
  · intro hpr
    have hlogs := probe_true_no_logs ev lang sf hpr
    have hedge : applyFlowEdge ops ev lang tree el indices.length i nodes =
        (nodes.map (deliverNode ops sf indices.length),
         (nodes.filter (edgeMatches ops sf)).map
           (fun n => Log.flowNodeIncoming (ops.element n.node) (edgeIncomingIdx ops sf n)),
         deliverCalls ops sf indices.length nodes) := by
      simp only [applyFlowEdge, h1, h2]
      simp only [hpr, if_true, deliverToTargets_eq, hlogs, List.nil_append]
      rfl
    refine ⟨hedge, ?_⟩
    intro n hn k hid hfind
    have hm : edgeMatches ops sf n = true := by
      simp [edgeMatches, hid, hfind]
    have hidx : edgeIncomingIdx ops sf n = k := by
      simp [edgeIncomingIdx, hfind]
    have hspec := deliverCalls_spec ops sf indices.length nodes hkeys n hn hm
    refine ⟨?_, ?_, ?_, ?_⟩
    · simp [deliverNode, hm]
    · rw [hedge]
      exact hspec.1
    · rw [hedge]
      exact hidx ▸ hspec.2.1
    · intro k' hk'
      rw [hedge] at hk'
      exact hidx ▸ hspec.2.2.1 k' hk'
  · intro hpr
    simp only [applyFlowEdge, h1, h2]
    simp [hpr]

/-- The stored token counter of the node with ghost key `k`. -/
def tokensOf {α : Type} (k : Nat) (nodes : List (FlowNode α)) : Option Nat :=
  (nodes.find? (fun n => n.key == k)).map FlowNode.tokens

/-- Two-starts-one-end scenario: first start event's element. -/
def s1El : FlowNodeElement := ⟨some "s1", [], ["f1"], .startEvent⟩

/-- Two-starts-one-end scenario: second start event's element. -/
def s2El : FlowNodeElement := ⟨some "s2", [], ["f2"], .startEvent⟩

/-- Two-starts-one-end scenario: the shared end event's element. -/
def endEl : FlowNodeElement := ⟨some "end", ["f1", "f2"], [], .endEvent⟩

/-- Two-starts-one-end scenario: the process element tree (two start
events, two unconditioned sequence flows, one end event). -/
def twoStartsTree : List FlowElement :=
  [.node s1El, .node s2El, .seqFlow ⟨"f1", "s1", "end", none⟩,
   .seqFlow ⟨"f2", "s2", "end", none⟩, .node endEl]

/-- Two-starts-one-end scenario: the scheduler state after construction
(all three nodes instantiated with zero tokens). -/
def twoStartsInit : SchedState NodeImpl :=
  ⟨[⟨0, "s1", 0, .startEventNode s1El .ready⟩,
    ⟨1, "s2", 0, .startEventNode s2El .ready⟩,
    ⟨2, "end", 0, .endEventNode endEl .ready⟩], none, false⟩

/-- An evaluator that always fails; the scenario's sequence flows carry no
conditions, so it is never consulted. -/
def noEval : Option String → String → Except String Bool :=
  fun _ _ => .error "unavailable"

/-- The admissible mux ordering that interleaves the end node's poll
between the two token deliveries: start, first start event fires, end node
polled, second start event fires, end node polled again. -/
def endBetweenTrace : List ScenEvent :=
  [.start, .poll 0, .poll 1, .poll 0, .poll 1]

/-- Witness for `flow_action_delivery`: in the two-starts-one-end model,
firing start event `s1`'s only outgoing edge delivers one token to the end
node, one `FlowNodeIncoming` log, one `tokens(1)` call and one
`incoming(0)` call. -/
theorem flow_action_delivery_witness :
    applyFlowEdge scenOps noEval none twoStartsTree s1El 1 0
        [⟨2, "end", 0, .endEventNode endEl .ready⟩] =
      ([⟨2, "end", 1, .endEventNode endEl .complete⟩],
       [.flowNodeIncoming endEl 0],
       [.tokensCall 2 1, .incomingCall 2 0]) := by
  have hkeys : (([⟨2, "end", 0, NodeImpl.endEventNode endEl .ready⟩] :
      List (FlowNode NodeImpl)).map FlowNode.key).Nodup := by decide
  have hi : 0 ∈ [0] := by decide
  have h1 : s1El.outgoings[0]? = some "f1" := by decide
  have h2 : findSeqFlow twoStartsTree "f1" =
      some ⟨"f1", "s1", "end", none⟩ := by decide
  have hpr : (probe_sequence_flow noEval none ⟨"f1", "s1", "end", none⟩).1 = true := by
    decide
  have h := (flow_action_delivery scenOps noEval none twoStartsTree s1El [0] 0
    _ hkeys hi "f1" _ h1 h2).1 hpr
  exact h.1.trans (by decide)

/-- Appending incoming-edge lists composes the splice fold, a drop in the
first part short-circuiting the second. -/
theorem spliceFold_append {α : Type} (ops : NodeOps α) (nodes : List (FlowNode α))
    (pre post : List String) (a0 : Option Action) :
    spliceFold ops nodes (pre ++ post) a0 =
      (match spliceFold ops nodes pre a0 with
       | (n1, Control.drop, cs) => (n1, Control.drop, cs)
       | (n1, Control.proceed a, cs) =>
         ((spliceFold ops n1 post a).1, (spliceFold ops n1 post a).2.1,
          cs ++ (spliceFold ops n1 post a).2.2)) := by
  induction pre generalizing nodes a0 with
  | nil => simp [spliceFold]
  | cons incoming rest ih =>
    rw [List.cons_append]
    show spliceFold ops nodes (incoming :: (rest ++ post)) a0 = _
    cases hord : nodes.findIdx? (ownsEdge ops incoming) with
    | none =>
      simp only [spliceFold, hord]
      exact ih nodes a0
    | some j =>
      cases hpred : nodes[j]? with
      | none =>
        simp only [spliceFold, hord, hpred]
        exact ih nodes a0
      | some pred =>
        cases hhook : (ops.handle_outgoing_action pred.node
            (outgoingPos ops pred incoming) a0).2 with
        | none =>
          simp only [spliceFold, hord, hpred, outgoingPos] at hhook ⊢
          simp only [hhook]
        | some a' =>
          simp only [spliceFold, hord, hpred, outgoingPos] at hhook ⊢
          simp only [hhook]
          rw [ih]
          rcases hS : spliceFold ops
            (nodes.set j { pred with
              node := (ops.handle_outgoing_action pred.node
                (((ops.element pred.node).outgoings.findIdx?
                  (fun o => o == incoming)).getD 0) a0).1 }) rest a' with ⟨m1, c, cs⟩
          cases c <;> simp

/-- C2: when the scheduler receives an action it folds over the producing
node's incomings in order; for each edge owned by some node of the set, the
first such predecessor's `handle_outgoing_action(i, action)` is invoked
with `i` the edge's position in its outgoings; a `none` reply drops the
action, later incomings are not consulted and the whole turn has no
downstream effect (no log, no further call, no token change — only the hook
mutations and the producer's re-enqueue happen); a `some` reply replaces
the action and folding continues; an unowned edge leaves the action
unchanged. -/
theorem splice_hook_contract {α : Type} (ops : NodeOps α)
    (ev : Option String → String → Except String Bool) (lang : Option String)
    (tree : List FlowElement) (producer : FlowNode α)
    (nodes : List (FlowNode α)) (pre post : List String) (e : String)
    (a0 : Option Action) (nodes1 : List (FlowNode α)) (a : Option Action)
    (calls1 : List Call)
    (hpre : spliceFold ops nodes pre a0 = (nodes1, .proceed a, calls1))
    (hinc : (ops.element producer.node).incomings = pre ++ e :: post) :
    (nodes1.findIdx? (ownsEdge ops e) = none →
      spliceFold ops nodes (pre ++ e :: post) a0 =
        ((spliceFold ops nodes1 post a).1, (spliceFold ops nodes1 post a).2.1,
         calls1 ++ (spliceFold ops nodes1 post a).2.2)) ∧
    (∀ j pred p', nodes1.findIdx? (ownsEdge ops e) = some j →
      nodes1[j]? = some pred →
      ops.handle_outgoing_action pred.node (outgoingPos ops pred e) a = (p', none) →
      spliceFold ops nodes (pre ++ e :: post) a0 =
        (nodes1.set j { pred with node := p' }, .drop,
         calls1 ++ [.hookCall pred.key (outgoingPos ops pred e)]) ∧
      dataTurn ops ev lang tree producer a0 nodes =
        (nodes1.set j { pred with node := p' } ++ [producer], [],
         calls1 ++ [.hookCall pred.key (outgoingPos ops pred e)])) ∧
    (∀ j pred p' a', nodes1.findIdx? (ownsEdge ops e) = some j →
      nodes1[j]? = some pred →
      ops.handle_outgoing_action pred.node (outgoingPos ops pred e) a = (p', some a') →
      spliceFold ops nodes (pre ++ e :: post) a0 =
        ((spliceFold ops (nodes1.set j { pred with node := p' }) post a').1,
         (spliceFold ops (nodes1.set j { pred with node := p' }) post a').2.1,
         calls1 ++ .hookCall pred.key (outgoingPos ops pred e) ::
           (spliceFold ops (nodes1.set j { pred with node := p' }) post a').2.2)) := by
  have hstep : spliceFold ops nodes (pre ++ e :: post) a0 =
      ((spliceFold ops nodes1 (e :: post) a).1,
       (spliceFold ops nodes1 (e :: post) a).2.1,
       calls1 ++ (spliceFold ops nodes1 (e :: post) a).2.2) := by
    rw [spliceFold_append, hpre]
  refine ⟨?_, ?_, ?_⟩
  · intro hord
    rw [hstep]
    simp only [spliceFold, hord]
  · intro j pred p' hord hpred hhook
    have hsp : spliceFold ops nodes (pre ++ e :: post) a0 =
        (nodes1.set j { pred with node := p' }, .drop,
         calls1 ++ [.hookCall pred.key (outgoingPos ops pred e)]) := by
      rw [hstep]
      simp only [spliceFold, hord, hpred, outgoingPos] at hhook ⊢
      rw [hhook]
    refine ⟨hsp, ?_⟩
    unfold dataTurn
    rw [hinc, hsp]
  · intro j pred p' a' hord hpred hhook
    rw [hstep]
    simp only [spliceFold, hord, hpred, outgoingPos] at hhook ⊢
    rw [hhook]

/-- A method table for the witness of the splice contract: node `true` has
incomings `e1, x`; node `false` owns outgoing `e1` and its hook drops every
action. -/
def dropOps : NodeOps Bool :=
  { element := fun b =>
      if b then ⟨some "n", ["e1", "x"], [], .otherKind "t"⟩
      else ⟨some "p", [], ["e1"], .otherKind "t"⟩
    handle_outgoing_action := fun n _ _ => (n, none)
    incoming := fun n _ => n
    tokens := fun n _ => n
    sequence_flow := fun n _ _ _ => n }

/-- Witness for `splice_hook_contract`: the dropping predecessor turns the
whole fold into a drop after one hook call, and the turn only re-enqueues
the producer. -/
theorem splice_hook_contract_witness :
    spliceFold dropOps [⟨5, "p", 0, false⟩] ["e1", "x"] (some .complete) =
      ([⟨5, "p", 0, false⟩], .drop, [.hookCall 5 0]) ∧
    dataTurn dropOps noEval none [] ⟨7, "n", 3, true⟩ (some .complete)
        [⟨5, "p", 0, false⟩] =
      ([⟨5, "p", 0, false⟩, ⟨7, "n", 3, true⟩], [], [.hookCall 5 0]) := by
  have h := (splice_hook_contract dropOps noEval none [] ⟨7, "n", 3, true⟩
    [⟨5, "p", 0, false⟩] [] ["x"] "e1" (some .complete) [⟨5, "p", 0, false⟩]
    (some .complete) [] rfl (by decide)).2.1 0 ⟨5, "p", 0, false⟩ false
    (by decide) (by decide) (by decide)
  exact ⟨h.1.trans (by decide), h.2.trans (by decide)⟩

/-- `applyProbe` changes only the producer's node payload: key, id and
token counter are preserved. -/
theorem applyProbe_preserves {α : Type} (ops : NodeOps α)
    (ev : Option String → String → Except String Bool) (lang : Option String)
    (tree : List FlowElement) (producer : FlowNode α) (l : List Nat) :
    (applyProbe ops ev lang tree producer l).1.key = producer.key ∧
    (applyProbe ops ev lang tree producer l).1.id = producer.id ∧
    (applyProbe ops ev lang tree producer l).1.tokens = producer.tokens := by
  induction l generalizing producer with
  | nil => exact ⟨rfl, rfl, rfl⟩
  | cons i rest ih =>
    cases h1 : (ops.element producer.node).outgoings[i]? with
    | none =>
      simp only [applyProbe, h1]
      exact ih producer
    | some oid =>
      cases h2 : findSeqFlow tree oid with
      | none =>
        simp only [applyProbe, h1, h2]
        exact ih producer
      | some sf =>
        simp only [applyProbe, h1, h2]
        exact ih _

/-- C5 counterexample: a producer whose stream ended (yielding no action)
while the set is still non-empty is NOT pushed back into the readiness mux:
the turn leaves exactly the other node in the set, broadcasts nothing
(no `Done`), and the producer is gone. -/
theorem end_of_stream_not_reenqueued :
    dataTurn scenOps noEval none twoStartsTree
        ⟨0, "s1", 0, .startEventNode s1El .finished⟩ none
        [⟨2, "end", 0, .endEventNode endEl .ready⟩] =
      ([⟨2, "end", 0, .endEventNode endEl .ready⟩], [], []) ∧
    (⟨0, "s1", 0, .startEventNode s1El .finished⟩ : FlowNode NodeImpl) ∉
      (dataTurn scenOps noEval none twoStartsTree
        ⟨0, "s1", 0, .startEventNode s1El .finished⟩ none
        [⟨2, "end", 0, .endEventNode endEl .ready⟩]).1 := by
  exact ⟨by decide, by decide⟩

/-- C5 amended: after processing an action the producing node is pushed
back with its preserved id and token count, UNLESS the spliced outcome is
`Proceed(None)` (no action / end-of-stream): then the node is never
re-enqueued — whether or not the set is empty — and `Done` is broadcast
exactly when the remaining set is empty. -/
theorem dataTurn_reenqueue {α : Type} (ops : NodeOps α)
    (ev : Option String → String → Except String Bool) (lang : Option String)
    (tree : List FlowElement) (producer : FlowNode α) (action : Option Action)
    (nodes n1 : List (FlowNode α)) (c : Control) (cs : List Call)
    (hsp : spliceFold ops nodes (ops.element producer.node).incomings action =
      (n1, c, cs)) :
    (c ≠ .proceed none →
      ∃ pref p', (dataTurn ops ev lang tree producer action nodes).1 = pref ++ [p'] ∧
        p'.key = producer.key ∧ p'.id = producer.id ∧ p'.tokens = producer.tokens) ∧
    (c = .proceed none →
      (dataTurn ops ev lang tree producer action nodes).1 = n1 ∧
      (dataTurn ops ev lang tree producer action nodes).2.1 =
        (if n1.isEmpty then [Log.done] else [])) := by
  constructor
  · intro hne
    unfold dataTurn
    rw [hsp]
    match c, hne with
    | .proceed (some (.probeOutgoingSequenceFlows indices)), _ =>
      exact ⟨n1, _, rfl, (applyProbe_preserves ops ev lang tree producer indices).1,
        (applyProbe_preserves ops ev lang tree producer indices).2.1,
        (applyProbe_preserves ops ev lang tree producer indices).2.2⟩
    | .proceed (some (.flow indices)), _ =>
      exact ⟨_, producer, rfl, rfl, rfl, rfl⟩
    | .proceed (some .complete), _ => exact ⟨n1, producer, rfl, rfl, rfl, rfl⟩
    | .drop, _ => exact ⟨n1, producer, rfl, rfl, rfl, rfl⟩
  · intro hc
    subst hc
    unfold dataTurn
    rw [hsp]
    exact ⟨rfl, rfl⟩

/-- Witness for `dataTurn_reenqueue`: a `Complete` action is followed by a
re-enqueue of the producer with id and tokens intact; an end-of-stream
leaves the producer out of the set. -/
theorem dataTurn_reenqueue_witness :
    (∃ pref p', (dataTurn scenOps noEval none twoStartsTree
        ⟨0, "s1", 0, .startEventNode s1El .completing⟩ (some .complete)
        [⟨2, "end", 0, .endEventNode endEl .ready⟩]).1 = pref ++ [p'] ∧
      p'.key = 0 ∧ p'.id = "s1" ∧ p'.tokens = 0) ∧
    (dataTurn scenOps noEval none twoStartsTree
        ⟨0, "s1", 0, .startEventNode s1El .finished⟩ none
        [⟨2, "end", 0, .endEventNode endEl .ready⟩]).1 =
      [⟨2, "end", 0, .endEventNode endEl .ready⟩] := by
  constructor
  · exact (dataTurn_reenqueue scenOps noEval none twoStartsTree
      ⟨0, "s1", 0, .startEventNode s1El .completing⟩ (some .complete)
      [⟨2, "end", 0, .endEventNode endEl .ready⟩] _ _ _ rfl).1 (by decide)
  · exact ((dataTurn_reenqueue scenOps noEval none twoStartsTree
      ⟨0, "s1", 0, .startEventNode s1El .finished⟩ none
      [⟨2, "end", 0, .endEventNode endEl .ready⟩] _ _ _ rfl).2 rfl).1

/-- A splice over edges owned by no node of the set leaves the action
unchanged, the set untouched, and makes no hook call. -/
theorem spliceFold_no_owner {α : Type} (ops : NodeOps α)
    (nodes : List (FlowNode α)) (l : List String) (a : Option Action)
    (h : ∀ e ∈ l, nodes.findIdx? (ownsEdge ops e) = none) :
    spliceFold ops nodes l a = (nodes, .proceed a, []) := by
  induction l with
  | nil => rfl
  | cons e rest ih =>
    have he : nodes.findIdx? (ownsEdge ops e) = none := h e (by simp)
    simp only [spliceFold, he]
    exact ih (fun e' he' => h e' (by simp [he']))

/-- Edge-firing preserves the key sequence of the set, and only addresses
calls to keys of the set. -/
theorem applyFlowEdge_keys {α : Type} (ops : NodeOps α)
    (ev : Option String → String → Except String Bool) (lang : Option String)
    (tree : List FlowElement) (el : FlowNodeElement) (count i : Nat)
    (nodes : List (FlowNode α)) :
    (applyFlowEdge ops ev lang tree el count i nodes).1.map FlowNode.key =
      nodes.map FlowNode.key ∧
    (∀ c ∈ (applyFlowEdge ops ev lang tree el count i nodes).2.2,
      callKey c ∈ nodes.map FlowNode.key) := by
  cases h1 : el.outgoings[i]? with
  | none =>
    simp only [applyFlowEdge, h1]
    exact ⟨trivial, by simp⟩
  | some oid =>
    cases h2 : findSeqFlow tree oid with
    | none =>
      simp only [applyFlowEdge, h1, h2]
      exact ⟨trivial, by simp⟩
    | some sf =>
      cases hpr : (probe_sequence_flow ev lang sf).1 with
      | false => simp [applyFlowEdge, h1, h2, hpr]
      | true =>
        simp only [applyFlowEdge, h1, h2, hpr, if_true, deliverToTargets_eq]
        constructor
        · rw [List.map_map]
          exact List.map_congr_left (fun n _ => deliverNode_key ops sf count n)
        · intro c hc
          have hF : ∀ (m : FlowNode α) c,
              c ∈ [Call.tokensCall m.key (m.tokens + count),
                   Call.incomingCall m.key (edgeIncomingIdx ops sf m)] →
              callKey c = m.key := by
            intro m c hcm
            rcases List.mem_cons.mp hcm with h | h
            · simp [h, callKey]
            · simp only [List.mem_singleton] at h
              simp [h, callKey]
          have hmem := flatMap_keyed_mem _ hF (nodes.filter (edgeMatches ops sf)) hc
          have hsub : List.Sublist
              ((nodes.filter (edgeMatches ops sf)).map FlowNode.key)
              (nodes.map FlowNode.key) :=
            (List.filter_sublist nodes).map FlowNode.key
          exact hsub.subset hmem

/-- A whole `Flow` application preserves the key sequence of the set and
only addresses calls to keys of the set. -/
theorem applyFlow_keys {α : Type} (ops : NodeOps α)
    (ev : Option String → String → Except String Bool) (lang : Option String)
    (tree : List FlowElement) (el : FlowNodeElement) (count : Nat)
    (l : List Nat) (nodes : List (FlowNode α)) :
    (applyFlow ops ev lang tree el count l nodes).1.map FlowNode.key =
      nodes.map FlowNode.key ∧
    (∀ c ∈ (applyFlow ops ev lang tree el count l nodes).2.2,
      callKey c ∈ nodes.map FlowNode.key) := by
  induction l generalizing nodes with
  | nil => exact ⟨rfl, by simp [applyFlow]⟩
  | cons i rest ih =>
    simp only [applyFlow]
    have he := applyFlowEdge_keys ops ev lang tree el count i nodes
    have hr := ih (applyFlowEdge ops ev lang tree el count i nodes).1
    refine ⟨hr.1.trans he.1, ?_⟩
    intro c hc
    rcases List.mem_append.mp hc with h | h
    · exact he.2 c h
    · exact he.1 ▸ hr.2 c h

/-- C10: when a node fires a `Flow` along a self-loop (an edge whose
`target_ref` is the producing node's own id), and no node of the remaining
set owns the producer's incomings, the producer receives no call at all —
no token increment, no `tokens`, no `incoming` — because it is absent from
the set while its action is applied, and it is re-enqueued afterwards as
the last element with its pre-action token count. -/
theorem self_loop_no_self_delivery {α : Type} (ops : NodeOps α)
    (ev : Option String → String → Except String Bool) (lang : Option String)
    (tree : List FlowElement) (producer : FlowNode α) (indices : List Nat)
    (nodes : List (FlowNode α))
    (hkey : producer.key ∉ nodes.map FlowNode.key)
    (hpred : ∀ e ∈ (ops.element producer.node).incomings,
      nodes.findIdx? (ownsEdge ops e) = none)
    (i : Nat) (oid : String) (sf : SequenceFlow) (hi : i ∈ indices)
    (h1 : (ops.element producer.node).outgoings[i]? = some oid)
    (h2 : findSeqFlow tree oid = some sf)
    (hself : sf.target_ref = producer.id) :
    (∀ c ∈ (dataTurn ops ev lang tree producer (some (.flow indices)) nodes).2.2,
      callKey c ≠ producer.key) ∧
    dataTurn ops ev lang tree producer (some (.flow indices)) nodes =
      ((applyFlow ops ev lang tree (ops.element producer.node) indices.length
          indices nodes).1 ++ [producer],
       (applyFlow ops ev lang tree (ops.element producer.node) indices.length
          indices nodes).2.1,
       (applyFlow ops ev lang tree (ops.element producer.node) indices.length
          indices nodes).2.2) := by
  have hsp := spliceFold_no_owner ops nodes
    (ops.element producer.node).incomings (some (.flow indices)) hpred
  have hdt : dataTurn ops ev lang tree producer (some (.flow indices)) nodes =
      ((applyFlow ops ev lang tree (ops.element producer.node) indices.length
          indices nodes).1 ++ [producer],
       (applyFlow ops ev lang tree (ops.element producer.node) indices.length
          indices nodes).2.1,
       (applyFlow ops ev lang tree (ops.element producer.node) indices.length
          indices nodes).2.2) := by
    simp only [dataTurn, hsp, List.nil_append]
  refine ⟨?_, hdt⟩
  intro c hc hck
  rw [hdt] at hc
  have := (applyFlow_keys ops ev lang tree (ops.element producer.node)
    indices.length indices nodes).2 c hc
  exact hkey (hck ▸ this)

/-- The method table of an id-only node used by the self-loop witness: one
node whose single edge loops back to itself. -/
def selfOps : NodeOps Unit :=
  { element := fun _ => ⟨some "n", ["loop"], ["loop"], .otherKind "t"⟩
    handle_outgoing_action := fun n _ a => (n, some a)
    incoming := fun n _ => n
    tokens := fun n _ => n
    sequence_flow := fun n _ _ _ => n }

/-- Witness for `self_loop_no_self_delivery`: a lone self-looping node
firing its own edge touches nothing and is re-enqueued with its pre-action
token count. -/
theorem self_loop_witness :
    dataTurn selfOps noEval none [.seqFlow ⟨"loop", "n", "n", none⟩]
        ⟨9, "n", 4, ()⟩ (some (.flow [0])) [] =
      ([⟨9, "n", 4, ()⟩], [], []) := by
  have h := self_loop_no_self_delivery selfOps noEval none
    [.seqFlow ⟨"loop", "n", "n", none⟩] ⟨9, "n", 4, ()⟩ [0] []
    (by decide) (by decide) 0 "loop" ⟨"loop", "n", "n", none⟩
    (by decide) (by decide) (by decide) (by decide)
  exact h.2.trans (by decide)

/-- C3: for every `Start(reply)` control request, if no flow element has
the kind tag `StartEvent` the reply is `NoStartEvent` and no process
`Start` event is broadcast; otherwise a `Start` event is broadcast and the
reply is `Ok`. -/
theorem scheduler_start_gate (els : List FlowElement) :
    ((∀ e ∈ els, e.kind ≠ ElementKind.startEvent) →
      schedulerStart els = (.noStartEvent, [])) ∧
    ((∃ e ∈ els, e.kind = ElementKind.startEvent) →
      schedulerStart els = (.ok, [.start])) := by
  constructor
  · intro h
    have hany : els.any (fun e => e.kind == ElementKind.startEvent) = false := by
      simp only [List.any_eq_false]
      intro e he
      simpa using h e he
    simp [schedulerStart, hany]
  · rintro ⟨e, he, hk⟩
    have hany : els.any (fun e => e.kind == ElementKind.startEvent) = true := by
      simp only [List.any_eq_true]
      exact ⟨e, he, by simpa using hk⟩
    simp [schedulerStart, hany]

/-- Witness for `scheduler_start_gate`: a tree with no start event replies
`NoStartEvent` without broadcasting; the two-starts tree broadcasts `Start`
and replies `Ok`. -/
theorem scheduler_start_gate_witness :
    schedulerStart [.node endEl] = (.noStartEvent, []) ∧
    schedulerStart twoStartsTree = (.ok, [.start]) := by
  constructor
  · exact (scheduler_start_gate [.node endEl]).1 (by decide)
  · exact (scheduler_start_gate twoStartsTree).2 ⟨.node s1El, by decide, by decide⟩

/-- C4: `probe_sequence_flow` returns true with no log when the flow has no
condition expression; returns the evaluation result with no log when
evaluation succeeds; broadcasts exactly one `ExpressionError` log and
returns false when evaluation fails. -/
theorem probe_sequence_flow_cases
    (ev : Option String → String → Except String Bool) (lang : Option String)
    (sf : SequenceFlow) :
    (sf.condition_expression = none →
      probe_sequence_flow ev lang sf = (true, [])) ∧
    (∀ c b, sf.condition_expression = some (some c) → ev lang c = .ok b →
      probe_sequence_flow ev lang sf = (b, [])) ∧
    (∀ c err, sf.condition_expression = some (some c) → ev lang c = .error err →
      probe_sequence_flow ev lang sf = (false, [.expressionError err])) := by
  refine ⟨fun h => by simp [probe_sequence_flow, h], ?_, ?_⟩
  · intro c b hc hev
    simp [probe_sequence_flow, hc, hev]
  · intro c err hc hev
    simp [probe_sequence_flow, hc, hev]

/-- Witness for `probe_sequence_flow_cases` at concrete flows and a
concrete evaluator covering all three cases. -/
theorem probe_sequence_flow_cases_witness :
    probe_sequence_flow noEval none ⟨"f", "a", "b", none⟩ = (true, []) ∧
    probe_sequence_flow (fun _ _ => .ok false) none ⟨"f", "a", "b", some (some "x")⟩ =
      (false, []) ∧
    probe_sequence_flow noEval none ⟨"f", "a", "b", some (some "x")⟩ =
      (false, [.expressionError "unavailable"]) := by
  refine ⟨(probe_sequence_flow_cases noEval none _).1 rfl, ?_, ?_⟩
  · exact (probe_sequence_flow_cases (fun _ _ => .ok false) none _).2.1 "x" false rfl rfl
  · exact (probe_sequence_flow_cases noEval none _).2.2 "x" "unavailable" rfl rfl

/-- C9: `EndEvent::incoming` sets the state to `Complete` unconditionally,
for every index and every prior state including `Done`; consequently an
incoming delivered after completion makes the next poll broadcast a second
`End` process event and emit `Complete` again, instead of staying pending
as it would from `Done`. -/
theorem endEvent_incoming_resets_terminal :
    (∀ st i, endEventIncoming st i = .complete) ∧
    (∀ i, endEventPollNext (endEventIncoming .done i) =
      some (some .complete, [.end_], .done)) ∧
    endEventPollNext .done = none :=
  ⟨fun _ _ => rfl, fun _ => rfl, rfl⟩

/-- C8 evaluated at the failing ordering: in the two-starts-one-end
scenario, when the end node is polled between the two token deliveries, the
`End` process event is broadcast twice and the end node completes twice
(its `FlowNodeCompleted` is logged twice), although its token counter does
reach 2 — the claim's exactly-once property fails on this admissible
ordering. -/
theorem two_starts_one_end_double_end :
    (scenRun noEval none twoStartsTree twoStartsInit endBetweenTrace).2.2.2.count
      .end_ = 2 ∧
    (scenRun noEval none twoStartsTree twoStartsInit endBetweenTrace).2.1.count
      (.flowNodeCompleted endEl) = 2 ∧
    tokensOf 2
      (scenRun noEval none twoStartsTree twoStartsInit endBetweenTrace).1.nodes =
      some 2 := by
  refine ⟨by decide, by decide, by decide⟩

/-- The sequence of values reported to node `k` through `tokens(n)` calls,
in order. -/
def reportsFor (k : Nat) (calls : List Call) : List Nat :=
  calls.filterMap fun c =>
    match c with
    | .tokensCall q v => if q = k then some v else none
    | _ => none

/-- `reportChainB prev l fin`: the reported values `l` are non-decreasing
starting from `prev`, and the last of them is at most `fin` (when the node
is still present with counter `fin`). -/
def reportChainB : Nat → List Nat → Option Nat → Bool
  | prev, [], some fin => decide (prev ≤ fin)
  | _, [], none => true
  | prev, v :: vs, fin => decide (prev ≤ v) && reportChainB v vs fin

/-- A report chain can be restarted from any smaller origin. -/
theorem reportChainB_mono (t mid : Nat) (l : List Nat) (fin : Option Nat)
    (h : t ≤ mid) (hc : reportChainB mid l fin = true) :
    reportChainB t l fin = true := by
  cases l with
  | nil =>
    cases fin with
    | none => rfl
    | some f =>
      simp only [reportChainB, decide_eq_true_eq] at hc ⊢
      omega
  | cons v vs =>
    simp only [reportChainB, Bool.and_eq_true, decide_eq_true_eq] at hc ⊢
    exact ⟨le_trans h hc.1, hc.2⟩

/-- Report chains compose over concatenation through a mid-point. -/
theorem reportChainB_append (t mid : Nat) (l1 l2 : List Nat) (fin : Option Nat)
    (h1 : reportChainB t l1 (some mid) = true)
    (h2 : reportChainB mid l2 fin = true) :
    reportChainB t (l1 ++ l2) fin = true := by
  induction l1 generalizing t with
  | nil =>
    simp only [reportChainB, decide_eq_true_eq] at h1
    simpa using reportChainB_mono t mid l2 fin h1 h2
  | cons v vs ih =>
    simp only [reportChainB, Bool.and_eq_true, decide_eq_true_eq] at h1
    simp only [List.cons_append, reportChainB, Bool.and_eq_true, decide_eq_true_eq]
    exact ⟨h1.1, ih v h1.2⟩

/-- `reportsFor` distributes over concatenation. -/
theorem reportsFor_append (k : Nat) (a b : List Call) :
    reportsFor k (a ++ b) = reportsFor k a ++ reportsFor k b :=
  List.filterMap_append a b _

/-- Calls addressed away from `k` report nothing to `k`. -/
theorem reportsFor_nil_of_keys (k : Nat) (calls : List Call)
    (h : ∀ c ∈ calls, callKey c ≠ k) : reportsFor k calls = [] := by
  induction calls with
  | nil => rfl
  | cons c rest ih =>
    have hrest : reportsFor k rest = [] := ih fun c hc => h c (by simp [hc])
    cases c with
    | tokensCall q v =>
      have hne : q ≠ k := by
        simpa [callKey] using h (.tokensCall q v) (by simp)
      simpa [reportsFor, List.filterMap_cons, hne] using hrest
    | incomingCall q i => simpa [reportsFor, List.filterMap_cons] using hrest
    | sequenceFlowCall q i b => simpa [reportsFor, List.filterMap_cons] using hrest
    | hookCall q i => simpa [reportsFor, List.filterMap_cons] using hrest

/-- `tokensOf` on a cons. -/
theorem tokensOf_cons {α : Type} (k : Nat) (m : FlowNode α)
    (rest : List (FlowNode α)) :
    tokensOf k (m :: rest) =
      if m.key == k then some m.tokens else tokensOf k rest := by
  unfold tokensOf
  cases hk : (m.key == k) <;> simp [List.find?_cons, hk]

/-- `tokensOf` on an append. -/
theorem tokensOf_append {α : Type} (k : Nat) (l1 l2 : List (FlowNode α)) :
    tokensOf k (l1 ++ l2) = (tokensOf k l1).or (tokensOf k l2) := by
  unfold tokensOf
  rw [List.find?_append]
  cases l1.find? (fun n => n.key == k) <;> simp

/-- A node's counter is absent exactly when its key is absent. -/
theorem tokensOf_eq_none_iff {α : Type} (k : Nat) (l : List (FlowNode α)) :
    tokensOf k l = none ↔ k ∉ l.map FlowNode.key := by
  induction l with
  | nil => simp [tokensOf]
  | cons m rest ih =>
    rw [tokensOf_cons]
    by_cases hmk : m.key = k
    · simp [hmk]
    · simp [hmk, ih, Ne.symm hmk]

/-- Overwriting a node's payload in place changes no counter. -/
theorem tokensOf_set {α : Type} (k : Nat) (nodes : List (FlowNode α)) (j : Nat)
    (pred : FlowNode α) (x : α) (h : nodes[j]? = some pred) :
    tokensOf k (nodes.set j { pred with node := x }) = tokensOf k nodes := by
  induction nodes generalizing j with
  | nil => simp at h
  | cons m rest ih =>
    cases j with
    | zero =>
      simp only [List.getElem?_cons_zero, Option.some_inj] at h
      subst h
      simp [List.set, tokensOf_cons]
    | succ j' =>
      simp only [List.getElem?_cons_succ] at h
      simp only [List.set, tokensOf_cons, ih j' h]

/-- Overwriting a node's payload in place changes no key. -/
theorem keys_set {α : Type} (nodes : List (FlowNode α)) (j : Nat)
    (pred : FlowNode α) (x : α) (h : nodes[j]? = some pred) :
    (nodes.set j { pred with node := x }).map FlowNode.key =
      nodes.map FlowNode.key := by
  induction nodes generalizing j with
  | nil => simp at h
  | cons m rest ih =>
    cases j with
    | zero =>
      simp only [List.getElem?_cons_zero, Option.some_inj] at h
      subst h
      simp [List.set]
    | succ j' =>
      simp only [List.getElem?_cons_succ] at h
      simp only [List.set, List.map_cons, ih j' h]

/-- Facts about removing the polled node from the set: its counter was
stored, its key disappears, everyone else's counter is untouched, and
distinctness of keys survives. -/
theorem eraseIdx_facts {α : Type} (nodes : List (FlowNode α)) (j : Nat)
    (rec0 : FlowNode α) (h : nodes[j]? = some rec0)
    (hkeys : (nodes.map FlowNode.key).Nodup) :
    tokensOf rec0.key nodes = some rec0.tokens ∧
    tokensOf rec0.key (nodes.eraseIdx j) = none ∧
    (∀ k, k ≠ rec0.key → tokensOf k (nodes.eraseIdx j) = tokensOf k nodes) ∧
    ((nodes.eraseIdx j).map FlowNode.key).Nodup ∧
    rec0.key ∉ (nodes.eraseIdx j).map FlowNode.key := by
  induction nodes generalizing j with
  | nil => simp at h
  | cons m rest ih =>
    have hk0 : (m.key :: rest.map FlowNode.key).Nodup := by simpa using hkeys
    have hk1 : m.key ∉ rest.map FlowNode.key := (List.nodup_cons.mp hk0).1
    have hk2 : (rest.map FlowNode.key).Nodup := (List.nodup_cons.mp hk0).2
    cases j with
    | zero =>
      simp only [List.getElem?_cons_zero, Option.some_inj] at h
      subst h
      refine ⟨by simp [tokensOf_cons], ?_, ?_, ?_, ?_⟩
      · simpa [List.eraseIdx, tokensOf_eq_none_iff] using hk1
      · intro k hk
        have : (m.key == k) = false := by
          simp only [beq_eq_false_iff_ne, ne_eq]
          exact fun hEq => hk hEq.symm
        simp [List.eraseIdx, tokensOf_cons, this]
      · simpa [List.eraseIdx] using hk2
      · simpa [List.eraseIdx] using hk1
    | succ j' =>
      simp only [List.getElem?_cons_succ] at h
      have hrec := ih j' h hk2
      have hmem : rec0 ∈ rest := List.getElem?_mem h
      have hne : rec0.key ≠ m.key := fun hEq =>
        hk1 (hEq ▸ List.mem_map_of_mem FlowNode.key hmem)
      have hbne : (m.key == rec0.key) = false := by
        simp only [beq_eq_false_iff_ne, ne_eq]
        exact fun hEq => hne hEq.symm
      have hsubk : (rest.eraseIdx j').map FlowNode.key ⊆ rest.map FlowNode.key :=
        ((rest.eraseIdx_sublist j').map FlowNode.key).subset
      refine ⟨?_, ?_, ?_, ?_, ?_⟩
      · simp [tokensOf_cons, hbne, hrec.1]
      · simp [List.eraseIdx, tokensOf_cons, hbne, hrec.2.1]
      · intro k hk
        cases hmk : (m.key == k) with
        | true => simp [List.eraseIdx, tokensOf_cons, hmk]
        | false => simp [List.eraseIdx, tokensOf_cons, hmk, hrec.2.2.1 k hk]
      · simp only [List.eraseIdx, List.map_cons, List.nodup_cons]
        exact ⟨fun hc => hk1 (hsubk hc), hrec.2.2.2.1⟩
      · simp only [List.eraseIdx, List.map_cons, List.mem_cons]
        rintro (hc | hc)
        · exact hne hc
        · exact hrec.2.2.2.2 hc

/-- The splice fold changes no counter, no key sequence, and reports no
token value (it only makes hook calls). -/
theorem spliceFold_preserve {α : Type} (ops : NodeOps α)
    (nodes : List (FlowNode α)) (l : List String) (a : Option Action) (k : Nat) :
    tokensOf k (spliceFold ops nodes l a).1 = tokensOf k nodes ∧
    (spliceFold ops nodes l a).1.map FlowNode.key = nodes.map FlowNode.key ∧
    reportsFor k (spliceFold ops nodes l a).2.2 = [] := by
  induction l generalizing nodes a with
  | nil => exact ⟨rfl, rfl, rfl⟩
  | cons incoming rest ih =>
    cases hord : nodes.findIdx? (ownsEdge ops incoming) with
    | none =>
      simp only [spliceFold, hord]
      exact ih nodes a
    | some j =>
      cases hpred : nodes[j]? with
      | none =>
        simp only [spliceFold, hord, hpred]
        exact ih nodes a
      | some pred =>
        cases hhook : (ops.handle_outgoing_action pred.node
            (outgoingPos ops pred incoming) a).2 with
        | none =>
          simp only [spliceFold, hord, hpred, outgoingPos] at hhook ⊢
          simp only [hhook]
          refine ⟨tokensOf_set k nodes j pred _ hpred,
            keys_set nodes j pred _ hpred, rfl⟩
        | some a' =>
          simp only [spliceFold, hord, hpred, outgoingPos] at hhook ⊢
          simp only [hhook]
          have hih := ih (nodes.set j { pred with
            node := (ops.handle_outgoing_action pred.node
              (((ops.element pred.node).outgoings.findIdx?
                (fun o => o == incoming)).getD 0) a).1 }) a'
          refine ⟨hih.1.trans (tokensOf_set k nodes j pred _ hpred),
            hih.2.1.trans (keys_set nodes j pred _ hpred), ?_⟩
          simpa [reportsFor, List.filterMap_cons] using hih.2.2

/-- The probe branch reports no token value (it only makes
`sequence_flow` calls). -/
theorem applyProbe_reports {α : Type} (ops : NodeOps α)
    (ev : Option String → String → Except String Bool) (lang : Option String)
    (tree : List FlowElement) (producer : FlowNode α) (l : List Nat) (k : Nat) :
    reportsFor k (applyProbe ops ev lang tree producer l).2.2 = [] := by
  induction l generalizing producer with
  | nil => rfl
  | cons i rest ih =>
    cases h1 : (ops.element producer.node).outgoings[i]? with
    | none =>
      simp only [applyProbe, h1]
      exact ih producer
    | some oid =>
      cases h2 : findSeqFlow tree oid with
      | none =>
        simp only [applyProbe, h1, h2]
        exact ih producer
      | some sf =>
        simp only [applyProbe, h1, h2]
        simpa [reportsFor, List.filterMap_cons] using ih _

/-- Every call of the per-edge delivery is addressed to a key of the set. -/
theorem deliver_call_keys {α : Type} (ops : NodeOps α) (sf : SequenceFlow)
    (count : Nat) (nodes : List (FlowNode α)) :
    ∀ c ∈ (deliverToTargets ops sf count nodes).2.2,
      callKey c ∈ nodes.map FlowNode.key := by
  rw [deliverToTargets_eq]
  intro c hc
  have hF : ∀ (m : FlowNode α) c,
      c ∈ [Call.tokensCall m.key (m.tokens + count),
           Call.incomingCall m.key (edgeIncomingIdx ops sf m)] →
      callKey c = m.key := by
    intro m c hcm
    rcases List.mem_cons.mp hcm with h | h
    · simp [h, callKey]
    · simp only [List.mem_singleton] at h
      simp [h, callKey]
  have hmem := flatMap_keyed_mem _ hF (nodes.filter (edgeMatches ops sf)) hc
  exact ((List.filter_sublist nodes).map FlowNode.key).subset hmem

/-- One step of the delivery loop on a matching head. -/
theorem deliverToTargets_cons_match {α : Type} (ops : NodeOps α)
    (sf : SequenceFlow) (count : Nat) (n : FlowNode α)
    (rest : List (FlowNode α)) (index : Nat)
    (hid : (n.id == sf.target_ref) = true)
    (hfind : (ops.element n.node).incomings.findIdx? (fun inc => inc == sf.id) =
      some index) :
    deliverToTargets ops sf count (n :: rest) =
      ({ n with tokens := n.tokens + count,
                node := ops.incoming (ops.tokens n.node (n.tokens + count)) index } ::
        (deliverToTargets ops sf count rest).1,
       .flowNodeIncoming (ops.element n.node) index ::
        (deliverToTargets ops sf count rest).2.1,
       .tokensCall n.key (n.tokens + count) :: .incomingCall n.key index ::
        (deliverToTargets ops sf count rest).2.2) := by
  simp only [deliverToTargets, hid, hfind, if_true]

/-- One step of the delivery loop on a non-matching head. -/
theorem deliverToTargets_cons_skip {α : Type} (ops : NodeOps α)
    (sf : SequenceFlow) (count : Nat) (n : FlowNode α)
    (rest : List (FlowNode α)) (hm : edgeMatches ops sf n = false) :
    deliverToTargets ops sf count (n :: rest) =
      (n :: (deliverToTargets ops sf count rest).1,
       (deliverToTargets ops sf count rest).2.1,
       (deliverToTargets ops sf count rest).2.2) := by
  rw [edgeMatches, Bool.and_eq_false_iff] at hm
  rcases hm with hm | hm
  · simp only [deliverToTargets, hm, Bool.false_eq_true, if_false]
  · cases hfind : (ops.element n.node).incomings.findIdx? (fun inc => inc == sf.id) with
    | none =>
      cases hid : (n.id == sf.target_ref) with
      | true => simp only [deliverToTargets, hid, hfind, if_true]
      | false => simp only [deliverToTargets, hid, Bool.false_eq_true, if_false]
    | some index => simp [hfind] at hm

/-- `reportsFor` through a `tokens` call. -/
theorem reportsFor_cons_tokens (k q v : Nat) (cs : List Call) :
    reportsFor k (Call.tokensCall q v :: cs) =
      (if q = k then [v] else []) ++ reportsFor k cs := by
  by_cases h : q = k <;> simp [reportsFor, List.filterMap_cons, h]

/-- `reportsFor` ignores `incoming` calls. -/
theorem reportsFor_cons_incoming (k q i : Nat) (cs : List Call) :
    reportsFor k (Call.incomingCall q i :: cs) = reportsFor k cs := by
  simp [reportsFor, List.filterMap_cons]

/-- The report chain of one edge delivery: for a node present with counter
`t`, the reports addressed to it are non-decreasing from `t` and end at its
new counter. -/
theorem deliver_reportChain {α : Type} (ops : NodeOps α) (sf : SequenceFlow)
    (count : Nat) (nodes : List (FlowNode α))
    (hkeys : (nodes.map FlowNode.key).Nodup) (k t : Nat)
    (ht : tokensOf k nodes = some t) :
    reportChainB t (reportsFor k (deliverToTargets ops sf count nodes).2.2)
      (tokensOf k (deliverToTargets ops sf count nodes).1) = true := by
  induction nodes generalizing t with
  | nil => simp [tokensOf] at ht
  | cons n rest ih =>
    have hk0 : (n.key :: rest.map FlowNode.key).Nodup := by simpa using hkeys
    have hk1 : n.key ∉ rest.map FlowNode.key := (List.nodup_cons.mp hk0).1
    have hk2 : (rest.map FlowNode.key).Nodup := (List.nodup_cons.mp hk0).2
    by_cases hnk : n.key = k
    · -- the head node is the tracked one
      have htn : t = n.tokens := by
        rw [tokensOf_cons] at ht
        simp [hnk] at ht
        omega
      subst htn
      subst hnk
      have hnil : reportsFor n.key (deliverToTargets ops sf count rest).2.2 = [] := by
        refine reportsFor_nil_of_keys _ _ fun c hc => ?_
        intro hck
        exact hk1 (hck ▸ deliver_call_keys ops sf count rest c hc)
      cases hm : edgeMatches ops sf n with
      | true =>
        rw [edgeMatches, Bool.and_eq_true] at hm
        rcases hfind : (ops.element n.node).incomings.findIdx?
            (fun inc => inc == sf.id) with _ | index
        · rw [hfind] at hm
          simp at hm
        · simp only [deliverToTargets_cons_match ops sf count n rest index hm.1 hfind,
            reportsFor_cons_tokens, reportsFor_cons_incoming, tokensOf_cons, hnil,
            if_pos rfl, beq_self_eq_true, if_true, List.append_nil]
          simp [reportChainB]
      | false =>
        simp only [deliverToTargets_cons_skip ops sf count n rest hm, hnil,
          tokensOf_cons, beq_self_eq_true, if_pos rfl]
        simp [reportChainB]
    · -- the tracked node is in the tail
      have htr : tokensOf k rest = some t := by
        rw [tokensOf_cons] at ht
        simpa [hnk] using ht
      have hih := ih hk2 t htr
      have hbk : (n.key == k) = false := by simpa using hnk
      cases hm : edgeMatches ops sf n with
      | true =>
        rw [edgeMatches, Bool.and_eq_true] at hm
        rcases hfind : (ops.element n.node).incomings.findIdx?
            (fun inc => inc == sf.id) with _ | index
        · rw [hfind] at hm
          simp at hm
        · simp only [deliverToTargets_cons_match ops sf count n rest index hm.1 hfind,
            reportsFor_cons_tokens, reportsFor_cons_incoming, tokensOf_cons,
            if_neg hnk, hbk, Bool.false_eq_true, if_false, List.nil_append]
          exact hih
      | false =>
        simp only [deliverToTargets_cons_skip ops sf count n rest hm, tokensOf_cons,
          hbk, Bool.false_eq_true, if_false]
        exact hih

/-- The report chain of firing one edge of a `Flow` action. -/
theorem applyFlowEdge_reportChain {α : Type} (ops : NodeOps α)
    (ev : Option String → String → Except String Bool) (lang : Option String)
    (tree : List FlowElement) (el : FlowNodeElement) (count i : Nat)
    (nodes : List (FlowNode α)) (hkeys : (nodes.map FlowNode.key).Nodup)
    (k t : Nat) (ht : tokensOf k nodes = some t) :
    reportChainB t
      (reportsFor k (applyFlowEdge ops ev lang tree el count i nodes).2.2)
      (tokensOf k (applyFlowEdge ops ev lang tree el count i nodes).1) = true := by
  cases h1 : el.outgoings[i]? with
  | none =>
    simp only [applyFlowEdge, h1]
    simp [reportsFor, ht, reportChainB]
  | some oid =>
    cases h2 : findSeqFlow tree oid with
    | none =>
      simp only [applyFlowEdge, h1, h2]
      simp [reportsFor, ht, reportChainB]
    | some sf =>
      cases hpr : (probe_sequence_flow ev lang sf).1 with
      | false =>
        simp only [applyFlowEdge, h1, h2, hpr, Bool.false_eq_true, if_false]
        simp [reportsFor, ht, reportChainB]
      | true =>
        simp only [applyFlowEdge, h1, h2, hpr, if_true]
        exact deliver_reportChain ops sf count nodes hkeys k t ht

/-- The report chain of a whole `Flow` application. -/
theorem applyFlow_reportChain {α : Type} (ops : NodeOps α)
    (ev : Option String → String → Except String Bool) (lang : Option String)
    (tree : List FlowElement) (el : FlowNodeElement) (count : Nat)
    (l : List Nat) (nodes : List (FlowNode α))
    (hkeys : (nodes.map FlowNode.key).Nodup) (k t : Nat)
    (ht : tokensOf k nodes = some t) :
    reportChainB t
      (reportsFor k (applyFlow ops ev lang tree el count l nodes).2.2)
      (tokensOf k (applyFlow ops ev lang tree el count l nodes).1) = true := by
  induction l generalizing nodes t with
  | nil => simp [applyFlow, reportsFor, ht, reportChainB]
  | cons i rest ih =>
    have hE := applyFlowEdge_reportChain ops ev lang tree el count i nodes hkeys k t ht
    have hkeysE : ((applyFlowEdge ops ev lang tree el count i nodes).1.map
        FlowNode.key).Nodup := by
      rw [(applyFlowEdge_keys ops ev lang tree el count i nodes).1]
      exact hkeys
    rcases hfin : tokensOf k (applyFlowEdge ops ev lang tree el count i nodes).1
        with _ | t'
    · exfalso
      rw [tokensOf_eq_none_iff,
        (applyFlowEdge_keys ops ev lang tree el count i nodes).1] at hfin
      have hne : tokensOf k nodes ≠ none := by simp [ht]
      rw [Ne, tokensOf_eq_none_iff] at hne
      exact hne hfin
    · have hih := ih (applyFlowEdge ops ev lang tree el count i nodes).1 hkeysE t' hfin
      rw [hfin] at hE
      simp only [applyFlow]
      rw [reportsFor_append]
      exact reportChainB_append t t' _ _ _ hE hih

/-- `tokensOf` after re-enqueueing one node at the back. -/
theorem tokensOf_append_single {α : Type} (k : Nat) (l : List (FlowNode α))
    (p : FlowNode α) :
    tokensOf k (l ++ [p]) =
      (tokensOf k l).or (if p.key == k then some p.tokens else none) := by
  rw [tokensOf_append]
  congr 1
  rw [tokensOf_cons]
  cases h : (p.key == k) <;> simp [tokensOf]

/-- The report chain of one whole data-branch turn, for every node: a node
still present keeps a non-decreasing counter with matching reports; the
producer is re-enqueued with its snapshot (or leaves); an absent key stays
absent and silent.  The key sequence of the set is preserved up to the
optional re-enqueue of the producer. -/
theorem dataTurn_reportChain {α : Type} (ops : NodeOps α)
    (ev : Option String → String → Except String Bool) (lang : Option String)
    (tree : List FlowElement) (producer : FlowNode α) (action : Option Action)
    (nodes : List (FlowNode α))
    (hkeys : (nodes.map FlowNode.key).Nodup)
    (hout : producer.key ∉ nodes.map FlowNode.key) (k : Nat) :
    (∀ t, k ≠ producer.key → tokensOf k nodes = some t →
      reportChainB t
        (reportsFor k (dataTurn ops ev lang tree producer action nodes).2.2)
        (tokensOf k (dataTurn ops ev lang tree producer action nodes).1) = true) ∧
    (k = producer.key →
      reportChainB producer.tokens
        (reportsFor k (dataTurn ops ev lang tree producer action nodes).2.2)
        (tokensOf k (dataTurn ops ev lang tree producer action nodes).1) = true) ∧
    (k ∉ nodes.map FlowNode.key → k ≠ producer.key →
      reportsFor k (dataTurn ops ev lang tree producer action nodes).2.2 = [] ∧
      tokensOf k (dataTurn ops ev lang tree producer action nodes).1 = none) ∧
    ((dataTurn ops ev lang tree producer action nodes).1.map FlowNode.key =
        nodes.map FlowNode.key ++ [producer.key] ∨
     (dataTurn ops ev lang tree producer action nodes).1.map FlowNode.key =
        nodes.map FlowNode.key) := by
  obtain ⟨hS1, hS2, hS3⟩ := spliceFold_preserve ops nodes
    (ops.element producer.node).incomings action k
  rcases hc : spliceFold ops nodes (ops.element producer.node).incomings action
    with ⟨n1, c, cs⟩
  rw [hc] at hS1 hS2 hS3
  simp only at hS1 hS2 hS3
  have hn1none : k = producer.key → tokensOf k n1 = none := by
    intro hk
    rw [tokensOf_eq_none_iff, hS2]
    exact hk ▸ hout
  have habsent : k ∉ nodes.map FlowNode.key → tokensOf k n1 = none := by
    intro hk
    rw [tokensOf_eq_none_iff, hS2]
    exact hk
  match c with
  | .drop =>
    simp only [dataTurn, hc]
    refine ⟨?_, ?_, ?_, ?_⟩
    · intro t hk ht
      rw [hS3, tokensOf_append_single, hS1, ht]
      have : (producer.key == k) = false := by
        simpa using fun h => hk (h.symm)
      simp [this, reportChainB]
    · intro hk
      rw [hS3, tokensOf_append_single, hn1none hk]
      simp [hk, reportChainB]
    · intro hk hk2
      have : (producer.key == k) = false := by
        simpa using fun h => hk2 (h.symm)
      rw [hS3, tokensOf_append_single, habsent hk]
      simp [this]
    · left
      simp [hS2]
  | .proceed none =>
    simp only [dataTurn, hc]
    refine ⟨?_, ?_, ?_, ?_⟩
    · intro t hk ht
      rw [hS3, hS1, ht]
      simp [reportChainB]
    · intro hk
      rw [hS3, hn1none hk]
      simp [reportChainB]
    · intro hk hk2
      exact ⟨hS3, habsent hk⟩
    · right
      exact hS2
  | .proceed (some .complete) =>
    simp only [dataTurn, hc]
    refine ⟨?_, ?_, ?_, ?_⟩
    · intro t hk ht
      rw [hS3, tokensOf_append_single, hS1, ht]
      have : (producer.key == k) = false := by
        simpa using fun h => hk (h.symm)
      simp [this, reportChainB]
    · intro hk
      rw [hS3, tokensOf_append_single, hn1none hk]
      simp [hk, reportChainB]
    · intro hk hk2
      have : (producer.key == k) = false := by
        simpa using fun h => hk2 (h.symm)
      rw [hS3, tokensOf_append_single, habsent hk]
      simp [this]
    · left
      simp [hS2]
  | .proceed (some (.probeOutgoingSequenceFlows indices)) =>
    simp only [dataTurn, hc]
    obtain ⟨hPk, hPi, hPt⟩ := applyProbe_preserves ops ev lang tree producer indices
    have hPrep := applyProbe_reports ops ev lang tree producer indices k
    refine ⟨?_, ?_, ?_, ?_⟩
    · intro t hk ht
      rw [reportsFor_append, hS3, hPrep, tokensOf_append_single, hS1, ht, hPk]
      have : (producer.key == k) = false := by
        simpa using fun h => hk (h.symm)
      simp [this, reportChainB]
    · intro hk
      rw [reportsFor_append, hS3, hPrep, tokensOf_append_single, hn1none hk, hPk, hPt]
      simp [hk, reportChainB]
    · intro hk hk2
      have : (producer.key == k) = false := by
        simpa using fun h => hk2 (h.symm)
      rw [reportsFor_append, hS3, hPrep, tokensOf_append_single, habsent hk, hPk]
      simp [this]
    · left
      simp [hS2, hPk]
  | .proceed (some (.flow indices)) =>
    simp only [dataTurn, hc]
    have hkeys1 : (n1.map FlowNode.key).Nodup := by
      rw [hS2]
      exact hkeys
    obtain ⟨hFk, hFc⟩ := applyFlow_keys ops ev lang tree
      (ops.element producer.node) indices.length indices n1
    refine ⟨?_, ?_, ?_, ?_⟩
    · intro t hk ht
      have ht1 : tokensOf k n1 = some t := hS1.trans ht
      have hchain := applyFlow_reportChain ops ev lang tree
        (ops.element producer.node) indices.length indices n1 hkeys1 k t ht1
      rcases hfin : tokensOf k (applyFlow ops ev lang tree
          (ops.element producer.node) indices.length indices n1).1 with _ | t''
      · exfalso
        rw [tokensOf_eq_none_iff, hFk, hS2] at hfin
        have hne : tokensOf k nodes ≠ none := by simp [ht]
        rw [Ne, tokensOf_eq_none_iff] at hne
        exact hne hfin
      · rw [reportsFor_append, hS3, tokensOf_append_single, hfin]
        rw [hfin] at hchain
        simpa using hchain
    · intro hk
      have hrep : reportsFor k (applyFlow ops ev lang tree
          (ops.element producer.node) indices.length indices n1).2.2 = [] := by
        refine reportsFor_nil_of_keys k _ fun cl hcl hck => ?_
        have := hFc cl hcl
        rw [hck, hS2] at this
        exact (hk ▸ hout) this
      have hfin : tokensOf k (applyFlow ops ev lang tree
          (ops.element producer.node) indices.length indices n1).1 = none := by
        rw [tokensOf_eq_none_iff, hFk, hS2]
        exact hk ▸ hout
      rw [reportsFor_append, hS3, hrep, tokensOf_append_single, hfin, hk]
      simp [reportChainB]
    · intro hk hk2
      have hrep : reportsFor k (applyFlow ops ev lang tree
          (ops.element producer.node) indices.length indices n1).2.2 = [] := by
        refine reportsFor_nil_of_keys k _ fun cl hcl hck => ?_
        have := hFc cl hcl
        rw [hck, hS2] at this
        exact hk this
      have hfin : tokensOf k (applyFlow ops ev lang tree
          (ops.element producer.node) indices.length indices n1).1 = none := by
        rw [tokensOf_eq_none_iff, hFk, hS2]
        exact hk
      have : (producer.key == k) = false := by
        simpa using fun h => hk2 (h.symm)
      rw [reportsFor_append, hS3, hrep, tokensOf_append_single, hfin, this]
      simp
    · left
      simp [hFk, hS2]

/-- The report chain of one loop iteration, for every node key. -/
theorem schedStep_reportChain {α : Type} (ops : NodeOps α)
    (ev : Option String → String → Except String Bool) (lang : Option String)
    (tree : List FlowElement) (s : SchedState α) (e : SchedEvent α)
    (hkeys : (s.nodes.map FlowNode.key).Nodup) (k : Nat) :
    (∀ t, tokensOf k s.nodes = some t →
      reportChainB t (reportsFor k (schedStep ops ev lang tree s e).2.2.1)
        (tokensOf k (schedStep ops ev lang tree s e).1.nodes) = true) ∧
    (tokensOf k s.nodes = none →
      reportsFor k (schedStep ops ev lang tree s e).2.2.1 = [] ∧
      tokensOf k (schedStep ops ev lang tree s e).1.nodes = none) ∧
    ((schedStep ops ev lang tree s e).1.nodes.map FlowNode.key).Nodup := by
  by_cases hstop : s.stopped
  · simp only [schedStep, hstop, if_true]
    exact ⟨fun t ht => by simp [reportsFor, ht, reportChainB],
      fun h => ⟨rfl, h⟩, hkeys⟩
  · cases e with
    | ctrlJoinHandle h =>
      simp only [schedStep, hstop, if_false]
      exact ⟨fun t ht => by simp [reportsFor, ht, reportChainB],
        fun h => ⟨rfl, h⟩, hkeys⟩
    | ctrlTerminate =>
      simp only [schedStep, hstop, if_false]
      exact ⟨fun t ht => by simp [reportsFor, ht, reportChainB],
        fun h => ⟨rfl, h⟩, hkeys⟩
    | ctrlStart =>
      simp only [schedStep, hstop, if_false]
      exact ⟨fun t ht => by simp [reportsFor, ht, reportChainB],
        fun h => ⟨rfl, h⟩, hkeys⟩
    | ctrlClosed =>
      simp only [schedStep, hstop, if_false]
      exact ⟨fun t ht => by simp [reportsFor, ht, reportChainB],
        fun h => ⟨rfl, h⟩, hkeys⟩
    | deliver j action polled =>
      cases hj : s.nodes[j]? with
      | none =>
        simp only [schedStep, hstop, if_false, hj]
        exact ⟨fun t ht => by simp [reportsFor, ht, reportChainB],
          fun h => ⟨rfl, h⟩, hkeys⟩
      | some rec0 =>
        obtain ⟨hE1, hE2, hE3, hE4, hE5⟩ := eraseIdx_facts s.nodes j rec0 hj hkeys
        obtain ⟨hD1, hD2, hD3, hD4⟩ := dataTurn_reportChain ops ev lang tree
          { rec0 with node := polled } action (s.nodes.eraseIdx j) hE4 hE5 k
        simp only [schedStep, hstop, if_false, hj]
        refine ⟨?_, ?_, ?_⟩
        · intro t ht
          by_cases hk : k = rec0.key
          · have htk : t = rec0.tokens := by
              rw [hk] at ht
              rw [hE1] at ht
              exact (Option.some_inj.mp ht).symm
            subst htk
            exact hD2 hk
          · have ht' : tokensOf k (s.nodes.eraseIdx j) = some t :=
              (hE3 k hk).trans ht
            exact hD1 t hk ht'
        · intro hnone
          rw [tokensOf_eq_none_iff] at hnone
          have hkrec : k ≠ rec0.key := fun hEq => hnone
            (hEq ▸ List.mem_map_of_mem FlowNode.key (List.getElem?_mem hj))
          have hkrest : k ∉ (s.nodes.eraseIdx j).map FlowNode.key := fun hc =>
            hnone ((((s.nodes.eraseIdx_sublist j).map FlowNode.key).subset) hc)
          exact hD3 hkrest hkrec
        · show ((dataTurn ops ev lang tree { rec0 with node := polled } action
              (s.nodes.eraseIdx j)).1.map FlowNode.key).Nodup
          rcases hD4 with hD4 | hD4
          · rw [hD4, List.nodup_append]
            refine ⟨hE4, List.nodup_singleton _, ?_⟩
            intro x hx hx1
            simp only [List.mem_singleton] at hx1
            exact hE5 (hx1 ▸ hx)
          · rw [hD4]
            exact hE4

/-- The report chain of a whole run, for every node key. -/
theorem schedRun_reportChain {α : Type} (ops : NodeOps α)
    (ev : Option String → String → Except String Bool) (lang : Option String)
    (tree : List FlowElement) (s : SchedState α) (trace : List (SchedEvent α))
    (hkeys : (s.nodes.map FlowNode.key).Nodup) (k : Nat) :
    (∀ t, tokensOf k s.nodes = some t →
      reportChainB t (reportsFor k (schedRun ops ev lang tree s trace).2.2.1)
        (tokensOf k (schedRun ops ev lang tree s trace).1.nodes) = true) ∧
    (tokensOf k s.nodes = none →
      reportsFor k (schedRun ops ev lang tree s trace).2.2.1 = [] ∧
      tokensOf k (schedRun ops ev lang tree s trace).1.nodes = none) ∧
    ((schedRun ops ev lang tree s trace).1.nodes.map FlowNode.key).Nodup := by
  induction trace generalizing s with
  | nil =>
    exact ⟨fun t ht => by simp [schedRun, reportsFor, ht, reportChainB],
      fun h => ⟨rfl, h⟩, hkeys⟩
  | cons e rest ih =>
    obtain ⟨hs1, hs2, hs3⟩ := schedStep_reportChain ops ev lang tree s e hkeys k
    obtain ⟨hr1, hr2, hr3⟩ := ih (schedStep ops ev lang tree s e).1 hs3
    simp only [schedRun]
    refine ⟨?_, ?_, hr3⟩
    · intro t ht
      rw [reportsFor_append]
      rcases hmid : tokensOf k (schedStep ops ev lang tree s e).1.nodes with _ | t'
      · obtain ⟨hrep, hfin⟩ := hr2 hmid
        rw [hrep, hfin, List.append_nil]
        have h1 := hs1 t ht
        rw [hmid] at h1
        exact h1
      · have h1 := hs1 t ht
        rw [hmid] at h1
        exact reportChainB_append t t' _ _ _ h1 (hr1 t' hmid)
    · intro hnone
      obtain ⟨hrep1, hmid⟩ := hs2 hnone
      obtain ⟨hrep2, hfin⟩ := hr2 hmid
      rw [reportsFor_append, hrep1, hrep2]
      exact ⟨rfl, hfin⟩

/-- C6: for every node held by the scheduler, over every interleaving of
control requests and (adversarially chosen) node actions, the stored token
counter and the sequence of values reported through `tokens(n)` calls form
a non-decreasing chain: each reported value is at least the node's counter
before it, and the counter at the end of the run bounds the last report. -/
theorem tokens_monotonic {α : Type} (ops : NodeOps α)
    (ev : Option String → String → Except String Bool) (lang : Option String)
    (tree : List FlowElement) (s : SchedState α) (trace : List (SchedEvent α))
    (hkeys : (s.nodes.map FlowNode.key).Nodup) (k t : Nat)
    (ht : tokensOf k s.nodes = some t) :
    reportChainB t (reportsFor k (schedRun ops ev lang tree s trace).2.2.1)
      (tokensOf k (schedRun ops ev lang tree s trace).1.nodes) = true :=
  (schedRun_reportChain ops ev lang tree s trace hkeys k).1 t ht

/-- Witness for `tokens_monotonic`: in the two-starts-one-end model, after
the first start event fires, the end node (key 2) has been reported `1`
starting from counter `0` and its stored counter is `1`. -/
theorem tokens_monotonic_witness :
    reportChainB 0
      (reportsFor 2 (schedRun scenOps noEval none twoStartsTree twoStartsInit
        [.deliver 0 (some (.flow [0])) (.startEventNode s1El .completing)]).2.2.1)
      (tokensOf 2 (schedRun scenOps noEval none twoStartsTree twoStartsInit
        [.deliver 0 (some (.flow [0])) (.startEventNode s1El .completing)]).1.nodes)
      = true :=
  tokens_monotonic scenOps noEval none twoStartsTree twoStartsInit
    [.deliver 0 (some (.flow [0])) (.startEventNode s1El .completing)]
    (by decide) 2 0 (by decide)

/-- Every log of a condition probe is an `ExpressionError`. -/
theorem probe_logs_shape (ev : Option String → String → Except String Bool)
    (lang : Option String) (sf : SequenceFlow) :
    ∀ l ∈ (probe_sequence_flow ev lang sf).2, ∃ e, l = Log.expressionError e := by
  unfold probe_sequence_flow
  rcases sf.condition_expression with _ | (_ | c)
  · simp
  · simp
  · cases h : ev lang c with
    | ok b => simp [h]
    | error e =>
      simp only [h]
      intro l hl
      simp only [List.mem_singleton] at hl
      exact ⟨e, hl⟩

/-- Every log of one edge firing is an `ExpressionError` or a
`FlowNodeIncoming`. -/
theorem applyFlowEdge_logs_shape {α : Type} (ops : NodeOps α)
    (ev : Option String → String → Except String Bool) (lang : Option String)
    (tree : List FlowElement) (el : FlowNodeElement) (count i : Nat)
    (nodes : List (FlowNode α)) :
    ∀ l ∈ (applyFlowEdge ops ev lang tree el count i nodes).2.1,
      (∃ e, l = Log.expressionError e) ∨
      (∃ el2 k2, l = Log.flowNodeIncoming el2 k2) := by
  cases h1 : el.outgoings[i]? with
  | none => simp [applyFlowEdge, h1]
  | some oid =>
    cases h2 : findSeqFlow tree oid with
    | none => simp [applyFlowEdge, h1, h2]
    | some sf =>
      cases hpr : (probe_sequence_flow ev lang sf).1 with
      | false =>
        simp only [applyFlowEdge, h1, h2, hpr, Bool.false_eq_true, if_false]
        intro l hl
        exact Or.inl (probe_logs_shape ev lang sf l hl)
      | true =>
        simp only [applyFlowEdge, h1, h2, hpr, if_true, deliverToTargets_eq]
        intro l hl
        rcases List.mem_append.mp hl with hl | hl
        · exact Or.inl (probe_logs_shape ev lang sf l hl)
        · rcases List.mem_map.mp hl with ⟨n, _, hn⟩
          exact Or.inr ⟨ops.element n.node, edgeIncomingIdx ops sf n, hn.symm⟩

/-- Every log of a whole `Flow` application is an `ExpressionError` or a
`FlowNodeIncoming`. -/
theorem applyFlow_logs_shape {α : Type} (ops : NodeOps α)
    (ev : Option String → String → Except String Bool) (lang : Option String)
    (tree : List FlowElement) (el : FlowNodeElement) (count : Nat)
    (l : List Nat) (nodes : List (FlowNode α)) :
    ∀ lg ∈ (applyFlow ops ev lang tree el count l nodes).2.1,
      (∃ e, lg = Log.expressionError e) ∨
      (∃ el2 k2, lg = Log.flowNodeIncoming el2 k2) := by
  induction l generalizing nodes with
  | nil => simp [applyFlow]
  | cons i rest ih =>
    simp only [applyFlow]
    intro lg hlg
    rcases List.mem_append.mp hlg with h | h
    · exact applyFlowEdge_logs_shape ops ev lang tree el count i nodes lg h
    · exact ih _ lg h

/-- Every log of the probe branch is an `ExpressionError`. -/
theorem applyProbe_logs_shape {α : Type} (ops : NodeOps α)
    (ev : Option String → String → Except String Bool) (lang : Option String)
    (tree : List FlowElement) (producer : FlowNode α) (l : List Nat) :
    ∀ lg ∈ (applyProbe ops ev lang tree producer l).2.1,
      ∃ e, lg = Log.expressionError e := by
  induction l generalizing producer with
  | nil => simp [applyProbe]
  | cons i rest ih =>
    cases h1 : (ops.element producer.node).outgoings[i]? with
    | none =>
      simp only [applyProbe, h1]
      exact ih producer
    | some oid =>
      cases h2 : findSeqFlow tree oid with
      | none =>
        simp only [applyProbe, h1, h2]
        exact ih producer
      | some sf =>
        simp only [applyProbe, h1, h2]
        intro lg hlg
        rcases List.mem_append.mp hlg with h | h
        · exact probe_logs_shape ev lang sf lg h
        · exact ih _ lg h

/-- When a turn broadcasts `Done`, it broadcasts nothing else and the set
has become empty. -/
theorem dataTurn_done_shape {α : Type} (ops : NodeOps α)
    (ev : Option String → String → Except String Bool) (lang : Option String)
    (tree : List FlowElement) (producer : FlowNode α) (action : Option Action)
    (nodes : List (FlowNode α)) :
    Log.done ∈ (dataTurn ops ev lang tree producer action nodes).2.1 →
    (dataTurn ops ev lang tree producer action nodes).2.1 = [Log.done] ∧
    (dataTurn ops ev lang tree producer action nodes).1 = [] := by
  rcases hc : spliceFold ops nodes (ops.element producer.node).incomings action
    with ⟨n1, c, cs⟩
  match c with
  | .drop =>
    simp only [dataTurn, hc]
    intro h
    simp at h
  | .proceed none =>
    simp only [dataTurn, hc]
    cases he : n1.isEmpty with
    | false => simp [he]
    | true =>
      intro _
      simp only [he, if_true]
      exact ⟨by simp, List.isEmpty_iff.mp he⟩
  | .proceed (some .complete) =>
    simp only [dataTurn, hc]
    intro h
    simp at h
  | .proceed (some (.probeOutgoingSequenceFlows indices)) =>
    simp only [dataTurn, hc]
    intro h
    rcases applyProbe_logs_shape ops ev lang tree producer indices Log.done h
      with ⟨e, he⟩
    cases he
  | .proceed (some (.flow indices)) =>
    simp only [dataTurn, hc]
    intro h
    rcases applyFlow_logs_shape ops ev lang tree (ops.element producer.node)
      indices.length indices n1 Log.done h with ⟨e, he⟩ | ⟨el2, k2, he⟩
    · cases he
    · cases he

/-- When a loop iteration broadcasts `Done`, it broadcasts nothing else and
the flow-node set has become empty. -/
theorem schedStep_done_shape {α : Type} (ops : NodeOps α)
    (ev : Option String → String → Except String Bool) (lang : Option String)
    (tree : List FlowElement) (s : SchedState α) (e : SchedEvent α) :
    Log.done ∈ (schedStep ops ev lang tree s e).2.1 →
    (schedStep ops ev lang tree s e).2.1 = [Log.done] ∧
    (schedStep ops ev lang tree s e).1.nodes = [] := by
  by_cases hstop : s.stopped
  · simp only [schedStep, hstop, if_true]
    intro h
    simp at h
  · cases e with
    | ctrlJoinHandle h' =>
      simp only [schedStep, hstop, if_false]
      intro h
      simp at h
    | ctrlTerminate =>
      simp only [schedStep, hstop, if_false]
      intro h
      simp at h
    | ctrlStart =>
      simp only [schedStep, hstop, if_false]
      intro h
      simp at h
    | ctrlClosed =>
      simp only [schedStep, hstop, if_false]
      intro h
      simp at h
    | deliver j action polled =>
      cases hj : s.nodes[j]? with
      | none =>
        simp only [schedStep, hstop, if_false, hj]
        intro h
        simp at h
      | some rec0 =>
        simp only [schedStep, hstop, if_false, hj]
        intro h
        exact dataTurn_done_shape ops ev lang tree { rec0 with node := polled }
          action (s.nodes.eraseIdx j) h

/-- On an empty set every loop iteration broadcasts nothing and keeps the
set empty. -/
theorem schedStep_empty {α : Type} (ops : NodeOps α)
    (ev : Option String → String → Except String Bool) (lang : Option String)
    (tree : List FlowElement) (s : SchedState α) (e : SchedEvent α)
    (h : s.nodes = []) :
    (schedStep ops ev lang tree s e).2.1 = [] ∧
    (schedStep ops ev lang tree s e).1.nodes = [] := by
  by_cases hstop : s.stopped
  · simp only [schedStep, hstop, if_true]
    exact ⟨by simp, h⟩
  · cases e with
    | ctrlJoinHandle h' => exact ⟨by simp [schedStep, hstop], by simp [schedStep, hstop, h]⟩
    | ctrlTerminate => exact ⟨by simp [schedStep, hstop], by simp [schedStep, hstop, h]⟩
    | ctrlStart => exact ⟨by simp [schedStep, hstop], by simp [schedStep, hstop, h]⟩
    | ctrlClosed => exact ⟨by simp [schedStep, hstop], by simp [schedStep, hstop, h]⟩
    | deliver j action polled =>
      have hj : s.nodes[j]? = none := by simp [h]
      simp only [schedStep, hstop, if_false, hj]
      exact ⟨rfl, h⟩

/-- On an empty set a whole run broadcasts nothing and keeps the set
empty. -/
theorem schedRun_empty {α : Type} (ops : NodeOps α)
    (ev : Option String → String → Except String Bool) (lang : Option String)
    (tree : List FlowElement) (s : SchedState α) (trace : List (SchedEvent α))
    (h : s.nodes = []) :
    (schedRun ops ev lang tree s trace).2.1 = [] ∧
    (schedRun ops ev lang tree s trace).1.nodes = [] := by
  induction trace generalizing s with
  | nil => exact ⟨rfl, h⟩
  | cons e rest ih =>
    obtain ⟨h1, h2⟩ := schedStep_empty ops ev lang tree s e h
    obtain ⟨h3, h4⟩ := ih (schedStep ops ev lang tree s e).1 h2
    simp only [schedRun]
    rw [h1, h3]
    exact ⟨by simp, h4⟩

/-- A run that broadcast `Done` ends with an empty set. -/
theorem schedRun_done_empty {α : Type} (ops : NodeOps α)
    (ev : Option String → String → Except String Bool) (lang : Option String)
    (tree : List FlowElement) (s : SchedState α) (trace : List (SchedEvent α)) :
    Log.done ∈ (schedRun ops ev lang tree s trace).2.1 →
    (schedRun ops ev lang tree s trace).1.nodes = [] := by
  induction trace generalizing s with
  | nil => simp [schedRun]
  | cons e rest ih =>
    simp only [schedRun, List.mem_append]
    rintro (h | h)
    · exact (schedRun_empty ops ev lang tree _ rest
        (schedStep_done_shape ops ev lang tree s e h).2).2
    · exact ih _ h

/-- `Done` is broadcast at most once per run. -/
theorem schedRun_done_count {α : Type} (ops : NodeOps α)
    (ev : Option String → String → Except String Bool) (lang : Option String)
    (tree : List FlowElement) (s : SchedState α) (trace : List (SchedEvent α)) :
    (schedRun ops ev lang tree s trace).2.1.count Log.done ≤ 1 := by
  induction trace generalizing s with
  | nil => simp [schedRun]
  | cons e rest ih =>
    simp only [schedRun, List.count_append]
    by_cases h : Log.done ∈ (schedStep ops ev lang tree s e).2.1
    · obtain ⟨hl, hn⟩ := schedStep_done_shape ops ev lang tree s e h
      rw [hl, (schedRun_empty ops ev lang tree _ rest hn).1]
      simp
    · rw [List.count_eq_zero.mpr h]
      simpa using ih _

/-- C7: in every run, `Done` is broadcast at most once; it is broadcast
only in an iteration after which the flow-node set is empty; and once
`Done` has been broadcast the scheduler broadcasts nothing further — in
particular no more `FlowNodeCompleted` entries. -/
theorem done_once_and_final {α : Type} (ops : NodeOps α)
    (ev : Option String → String → Except String Bool) (lang : Option String)
    (tree : List FlowElement) (s0 : SchedState α) (trace : List (SchedEvent α)) :
    ((schedRun ops ev lang tree s0 trace).2.1.count Log.done ≤ 1) ∧
    (∀ t1 e t2, trace = t1 ++ e :: t2 →
      Log.done ∈ (schedStep ops ev lang tree
        (schedRun ops ev lang tree s0 t1).1 e).2.1 →
      (schedStep ops ev lang tree (schedRun ops ev lang tree s0 t1).1 e).1.nodes
        = []) ∧
    (∀ t1 t2, trace = t1 ++ t2 →
      Log.done ∈ (schedRun ops ev lang tree s0 t1).2.1 →
      (schedRun ops ev lang tree (schedRun ops ev lang tree s0 t1).1 t2).2.1 = [] ∧
      ∀ el2, Log.flowNodeCompleted el2 ∉
        (schedRun ops ev lang tree (schedRun ops ev lang tree s0 t1).1 t2).2.1) := by
  refine ⟨schedRun_done_count ops ev lang tree s0 trace, ?_, ?_⟩
  · intro t1 e t2 _ h
    exact (schedStep_done_shape ops ev lang tree _ e h).2
  · intro t1 t2 _ h
    have hempty := schedRun_done_empty ops ev lang tree s0 t1 h
    have hnil := (schedRun_empty ops ev lang tree _ t2 hempty).1
    exact ⟨hnil, fun el2 hc => by rw [hnil] at hc; cases hc⟩

/-- The one-node state used by the witness of `done_once_and_final`. -/
def doneS0 : SchedState NodeImpl :=
  ⟨[⟨0, "s1", 0, .startEventNode s1El .finished⟩], none, false⟩

/-- Witness for `done_once_and_final`: delivering end-of-stream to the only
node broadcasts `Done` once and empties the set. -/
theorem done_once_and_final_witness :
    (schedRun scenOps noEval none twoStartsTree doneS0
      [.deliver 0 none (.startEventNode s1El .finished)]).2.1.count Log.done ≤ 1 ∧
    (schedStep scenOps noEval none twoStartsTree doneS0
      (.deliver 0 none (.startEventNode s1El .finished))).1.nodes = [] := by
  have h := done_once_and_final scenOps noEval none twoStartsTree doneS0
    [.deliver 0 none (.startEventNode s1El .finished)]
  exact ⟨h.1, h.2.1 [] (.deliver 0 none (.startEventNode s1El .finished)) [] rfl
    (by decide)⟩

end Bpxe
